import Mathlib

/-!
Verification of the spring-truss topology-optimization core
(`src/model.py`, `src/solver.py`, `src/optimizer.py`).

Shallow embedding conventions:
* Python floats are embedded as exact rationals (`ℚ`); the float literals
  `0.012`, `0.6`, `1e-9`, `1e-12`, ... are read as the decimal rationals they
  denote.  NaN/Inf do not exist in `ℚ`; the solver's `np.isfinite` test on the
  returned solution is modelled by a boolean flag on the solver oracle's
  answer, and `np.isfinite(mean(|diag|))` (always true for rationals) by the
  sign test that accompanies it in `_choose_eps_from_diag`.
* `scipy.sparse.linalg.spsolve` is external library code; it is modelled as an
  explicit oracle parameter `Oracle` (a deterministic function, as a fixed
  BLAS/solver configuration is).  Its three observable behaviours in
  `solve_displacements` are: raising `MatrixRankWarning`, raising some other
  exception, or returning a vector (whose entries may or may not be finite).
* `np.random.default_rng(0)` is external library code; per the spec it is a
  fixed-seed deterministic generator.  It is modelled as an explicit pure
  chooser function threaded through the run together with its integer state.
* Python `dict` iteration order is insertion order; `Structure.nodes` is
  embedded as an association list in that order.  `set` membership is order
  irrelevant except for the anchor choice in `is_connectivity_ok`; the
  `protected` set is embedded as a list.
* `list.sort(key=...)` is a stable ascending sort; it is embedded as a stable
  structural insertion sort (`sSort`), which computes the same list for the
  total preorders that actually occur.
* The stack DFS `_dfs` computes the set of nodes reachable from the start
  list along the adjacency relation; it is embedded as a monotone saturation
  of the neighbour relation (`reachSet`), which has the same value.
* The multi-source BFS `_bfs_distance_to_set` assigns to a node the least
  number of edges to the target set; it is embedded via the k-step saturation
  balls: the distance of `x` is the least `k` with `x` in the k-ball.
-/

/-- `src/model.py` `Node`: stable integer id, planar position, per-axis
fixity flags, applied force components, scalar mass. -/
structure PNode where
  id : ℕ
  x : ℚ
  z : ℚ
  fixed_x : Bool := false
  fixed_z : Bool := false
  fx : ℚ := 0
  fz : ℚ := 0
  mass : ℚ := 1
deriving DecidableEq, Repr

/-- `src/model.py` `Spring`: directed pair of node ids plus stiffness. -/
structure PSpring where
  i : ℕ
  j : ℕ
  k : ℚ
deriving DecidableEq, Repr

/-- `src/model.py` `Structure`: mapping id → Node (kept as an insertion
ordered association list, mirroring Python dict iteration order) and an
ordered list of springs.  The external persistence fields (`name`, `db`,
`id`) play no role in the claims and are omitted. -/
structure PStructure where
  nodes : List (ℕ × PNode)
  springs : List PSpring
deriving DecidableEq, Repr

/-- Stable insertion into an ascending list: the new element goes before the
first element it compares `le` to, hence after all earlier ties. -/
def sInsert (le : α → α → Bool) (x : α) : List α → List α
  | [] => [x]
  | y :: ys => if le x y then x :: y :: ys else y :: sInsert le x ys

/-- Stable ascending sort (insertion sort).  Embeds Python's stable
`list.sort(key=...)`: for a total preorder comparator both produce the unique
stable ascending reordering. -/
def sSort (le : α → α → Bool) : List α → List α
  | [] => []
  | x :: xs => sInsert le x (sSort le xs)

namespace PStructure

/-- The current node ids, in dict (insertion) order. -/
def idList (s : PStructure) : List ℕ := s.nodes.map Prod.fst

/-- The current node ids as a finite set. -/
def idsFinset (s : PStructure) : Finset ℕ := s.idList.toFinset

/-- `Structure.node_ids_sorted`: `sorted(self.nodes.keys())`. -/
def nodeIdsSorted (s : PStructure) : List ℕ := sSort (fun a b => a ≤ b) s.idList

/-- `Structure.id_to_pos`: position of a node id in the sorted id list
(`dict` lookup; only queried at present ids). -/
def idToPos (s : PStructure) (nid : ℕ) : ℕ :=
  s.nodeIdsSorted.findIdx (fun m => m = nid)

/-- `Structure.ndofs`. -/
def ndofs (s : PStructure) : ℕ := 2 * s.nodes.length

/-- `Structure.total_mass`: `sum(n.mass for n in self.nodes.values())`. -/
def totalMass (s : PStructure) : ℚ := (s.nodes.map (fun p => p.2.mass)).sum

/-- `dict` lookup `self.nodes[nid]` (keys are unique, first match). -/
def nodeLookup (s : PStructure) (nid : ℕ) : Option PNode :=
  (s.nodes.find? (fun p => p.1 = nid)).map Prod.snd

/-- `Structure.remove_node`: delete the node entry and every spring that
touches it; no-op when the id is absent. -/
def removeNode (s : PStructure) (nid : ℕ) : PStructure :=
  if nid ∈ s.idsFinset then
    { nodes := s.nodes.filter (fun p => p.1 ≠ nid)
      springs := s.springs.filter (fun sp => sp.i ≠ nid ∧ sp.j ≠ nid) }
  else s

/-- `Structure.adjacency` at one node: the neighbours contributed by springs
whose two endpoints are both present (`if s.i in adj and s.j in adj`).  A
spring `(n, j)` contributes `j` to `adj[n]` and `n` to `adj[j]`. -/
def neighbors (s : PStructure) (n : ℕ) : Finset ℕ :=
  ((s.springs.filter (fun sp =>
      sp.i ∈ s.idsFinset ∧ sp.j ∈ s.idsFinset ∧ (sp.i = n ∨ sp.j = n))).map
    (fun sp => if sp.i = n then sp.j else sp.i)).toFinset

/-- Node degree: `len(adj.get(nid, set()))`. -/
def degOf (s : PStructure) (n : ℕ) : ℕ := (s.neighbors n).card

end PStructure

/-! ### Reachability by saturation

`_dfs` (optimizer.py) returns the set of nodes reachable from the start list
along the adjacency relation.  We compute that set by saturating the
neighbour relation; `U.card` rounds suffice when everything stays inside the
finite universe `U`. -/

/-- One saturation round: keep the set and add every neighbour of it. -/
def satStep (nb : ℕ → Finset ℕ) (A : Finset ℕ) : Finset ℕ := A ∪ A.biUnion nb

/-- The set reachable in at most `k` edge steps from `A`. -/
def reachSet (nb : ℕ → Finset ℕ) (k : ℕ) (A : Finset ℕ) : Finset ℕ :=
  (satStep nb)^[k] A

/-- The single-step edge relation of a neighbour function. -/
def edgeRel (nb : ℕ → Finset ℕ) (u v : ℕ) : Prop := v ∈ nb u

/-! ### Element kernel and linear solve (`src/solver.py`)

The solver is embedded over exact rationals.  The source computes
`L = hypot(dx, dz)`, `c = dx/L`, `s = dz/L` and matrix entries `c*c`, `c*s`,
`s*s`; over exact arithmetic `c*c = dx*dx/(dx^2+dz^2)` and so on, and
`L <= 0` holds iff `dx^2 + dz^2 <= 0`, which is how those tests and entries
are written below. -/

/-- Error kinds raised along `solve_displacements` (sparse path).
`zeroLength` is the `ValueError` of `_spring_element_matrix`; `missingNode`
is the `KeyError` of `struct.nodes[sp.i]`; `nonFinite` is the final NaN/Inf
`LinAlgError`; `singularRetryFailed` is the `LinAlgError` raised when the
regularized retry of the generic-exception branch fails;
`rankWarnPropagated` / `otherPropagated` are the uncaught exceptions escaping
the retry inside the `except MatrixRankWarning` handler. -/
inductive SolveErr where
  | zeroLength
  | missingNode
  | nonFinite
  | singularRetryFailed
  | rankWarnPropagated
  | otherPropagated
deriving DecidableEq, Repr

/-- Observable outcome of one `spsolve` call under
`warnings.simplefilter("error", MatrixRankWarning)`: the rank warning raised
as an error, some other exception, or a returned vector together with the
value of the later `np.all(np.isfinite(u_f))` test on it. -/
inductive SpsolveRes where
  | rankWarn
  | err
  | ok (u : List ℚ) (finite : Bool)
deriving DecidableEq, Repr

/-- The external sparse direct solver, as a deterministic oracle from the
dense image of `K_ff` and `F_f`. -/
def Oracle : Type := List (List ℚ) → List ℚ → SpsolveRes

/-- The 4×4 element stiffness entries of `_spring_element_matrix` /
`_make_ke_cache.get_ke`:
`k · [[cc, cs, −cc, −cs], [cs, ss, −cs, −ss], [−cc, −cs, cc, cs],
[−cs, −ss, cs, ss]]` with `cc = (dx/L)² = dx²/L²` etc.  (`np.kron(K2, O)`
in `get_ke` produces exactly this block matrix.) -/
def keEntries (dx dz k : ℚ) : Fin 4 → Fin 4 → ℚ :=
  let L2 := dx ^ 2 + dz ^ 2
  let cc := dx * dx / L2
  let cs := dx * dz / L2
  let ss := dz * dz / L2
  fun a b =>
    k * (![![cc, cs, -cc, -cs], ![cs, ss, -cs, -ss],
          ![-cc, -cs, cc, cs], ![-cs, -ss, cs, ss]] a b)

/-- The element matrix written directly in the direction cosines `c`, `s`,
exactly as the rows appear in `_spring_element_matrix` (solver.py lines
22–30). -/
def keOfCS (k c s : ℚ) : Fin 4 → Fin 4 → ℚ :=
  fun a b =>
    k * (![![c * c, c * s, -(c * c), -(c * s)],
          ![c * s, s * s, -(c * s), -(s * s)],
          ![-(c * c), -(c * s), c * c, c * s],
          ![-(c * s), -(s * s), c * s, s * s]] a b)

/-- `_spring_element_matrix`: raises `ZeroLengthSpring` when `L <= 0`
(iff `dx² + dz² <= 0` over exact arithmetic). -/
def elemMatrix (xi zi xj zj k : ℚ) : Except SolveErr (Fin 4 → Fin 4 → ℚ) :=
  let dx := xj - xi
  let dz := zj - zi
  if dx ^ 2 + dz ^ 2 ≤ 0 then Except.error SolveErr.zeroLength
  else Except.ok (keEntries dx dz k)

/-- The quadratic form `ue.T @ Ke @ ue` of `_spring_energies`. -/
def quadForm (M : Fin 4 → Fin 4 → ℚ) (u : Fin 4 → ℚ) : ℚ :=
  ∑ a : Fin 4, ∑ b : Fin 4, u a * M a b * u b

/-- `_make_ke_cache.get_ke`: canonical-key memoization of a pure function of
the initial coordinates, so embedded as that pure function.  A reversed pair
`(j, i)` yields the same matrix (every entry is a product of two sign flips),
so serving the `(min, max, k)` cache entry is value-equal.  Note the `L <= 0`
branch (optimizer.py lines 25–28) returns a cached ZERO matrix instead of
raising.  A missing coordinate (`KeyError`) is modelled as `none`. -/
def getKe (coords : ℕ → Option (ℚ × ℚ)) (sp : PSpring) :
    Option (Fin 4 → Fin 4 → ℚ) :=
  match coords sp.i, coords sp.j with
  | some (xi, zi), some (xj, zj) =>
    let dx := xj - xi
    let dz := zj - zi
    if dx ^ 2 + dz ^ 2 ≤ 0 then some (fun _ _ => 0)
    else some (keEntries dx dz sp.k)
  | _, _ => none

/-- One assembled element: its global DOF indices
`[2pi, 2pi+1, 2pj, 2pj+1]` and its 4×4 matrix. -/
abbrev AsmEntry : Type := (Fin 4 → ℕ) × (Fin 4 → Fin 4 → ℚ)

/-- The per-spring loop of `assemble_K_F_sparse`: look the endpoints up
(`KeyError` when absent), build the element matrix (may raise
`ZeroLengthSpring`), record the scatter target DOFs. -/
def assembleEntries (s : PStructure) : List PSpring → Except SolveErr (List AsmEntry)
  | [] => Except.ok []
  | sp :: rest =>
    match s.nodeLookup sp.i, s.nodeLookup sp.j with
    | some ni, some nj =>
      match elemMatrix ni.x ni.z nj.x nj.z sp.k with
      | Except.error e => Except.error e
      | Except.ok ke =>
        let pi := s.idToPos sp.i
        let pj := s.idToPos sp.j
        let dofs : Fin 4 → ℕ := ![2 * pi, 2 * pi + 1, 2 * pj, 2 * pj + 1]
        (assembleEntries s rest).map (fun l => (dofs, ke) :: l)
    | _, _ => Except.error SolveErr.missingNode

/-- Entry `(r, c)` of the assembled global `K`: the COO triple sum, i.e. the
sum of every element-matrix coefficient scattered to that position. -/
def kGlobal (entries : List AsmEntry) (r c : ℕ) : ℚ :=
  (entries.map (fun e =>
    ∑ a : Fin 4, ∑ b : Fin 4,
      if e.1 a = r ∧ e.1 b = c then e.2 a b else 0)).sum

/-- Entry `r` of the assembled load vector `F`:
`F[2p] += fx; F[2p+1] += fz` per node. -/
def fGlobal (s : PStructure) (r : ℕ) : ℚ :=
  (s.nodes.map (fun p =>
    (if 2 * s.idToPos p.1 = r then p.2.fx else 0) +
    (if 2 * s.idToPos p.1 + 1 = r then p.2.fz else 0))).sum

/-- `_choose_eps_from_diag`: `eps = base * mean(|diag|)`, falling back to
`base = 1e-9` when the mean is zero (or non-finite, which cannot occur over
`ℚ`); the mean of an empty diagonal is 0. -/
def chooseEps (diag : List ℚ) : ℚ :=
  let m : ℚ := if diag.length = 0 then 0 else (diag.map (fun q => |q|)).sum / diag.length
  if m ≤ 0 then 1 / 10 ^ 9 else (1 / 10 ^ 9) * m

/-- `_regularize_sparse`: `K_ff + eps * I`. -/
def regularizeMat (M : List (List ℚ)) (eps : ℚ) : List (List ℚ) :=
  M.enum.map (fun ir => (ir.2.enum.map (fun jv =>
    if ir.1 = jv.1 then jv.2 + eps else jv.2)))

/-- Per-node displacement read-out: `(u[2p], u[2p+1])` per sorted node id. -/
def dispOfU (s : PStructure) (uFull : List ℚ) : List (ℕ × (ℚ × ℚ)) :=
  s.nodeIdsSorted.map (fun nid =>
    (nid, (uFull.getD (2 * s.idToPos nid) 0, uFull.getD (2 * s.idToPos nid + 1) 0)))

/-- The fixed-DOF list: `2p` when `fixed_x`, `2p+1` when `fixed_z`, in node
(dict) order. -/
def fixedDofs (s : PStructure) : List ℕ :=
  (s.nodes.map (fun p =>
    (if p.2.fixed_x then [2 * s.idToPos p.1] else []) ++
    (if p.2.fixed_z then [2 * s.idToPos p.1 + 1] else []))).flatten

/-- The free DOFs: the ascending complement of the fixed set. -/
def freeDofs (s : PStructure) : List ℕ :=
  (List.range s.ndofs).filter (fun i => ¬ i ∈ fixedDofs s)

/-- The dense image of the extracted submatrix `K_ff = K[free][:, free]`. -/
def kffOf (s : PStructure) (entries : List AsmEntry) : List (List ℚ) :=
  (freeDofs s).map (fun r => (freeDofs s).map (fun c => kGlobal entries r c))

/-- The extracted load vector `F_f = F[free]`. -/
def ffOf (s : PStructure) : List ℚ :=
  (freeDofs s).map (fun r => fGlobal s r)

/-- `eps` as computed before the solve attempts:
`_choose_eps_from_diag(K_ff.diagonal(), base=1e-9)`. -/
def epsOf (s : PStructure) (entries : List AsmEntry) : ℚ :=
  chooseEps ((freeDofs s).map (fun r => kGlobal entries r r))

/-- Scatter the free solution back: `u = zeros(ndofs); u[free] = u_f`. -/
def uFullOf (s : PStructure) (uf : List ℚ) : List ℚ :=
  (List.range s.ndofs).map (fun d =>
    match (freeDofs s).findIdx? (fun i => i = d) with
    | some idx => uf.getD idx 0
    | none => 0)

/-- The tail of `solve_displacements` after a returned `u_f`: the NaN/Inf
check, then the scatter and the per-node map. -/
def solveFinish (s : PStructure) (uf : List ℚ) (fin : Bool)
    (trace : List (List (List ℚ) × List ℚ)) :
    Except SolveErr (List ℚ × List (ℕ × (ℚ × ℚ))) × List (List (List ℚ) × List ℚ) :=
  if fin then (Except.ok (uFullOf s uf, dispOfU s (uFullOf s uf)), trace)
  else (Except.error SolveErr.nonFinite, trace)

/-- `solve_displacements` (sparse path, the one taken since scipy is
available), as a function of the `spsolve` oracle.  The second component
records the `(matrix, rhs)` argument of every oracle invocation, in order.
The dense fallback branch (`_HAS_SCIPY` false) is not part of the embedded
deployment. -/
def solveDisp (oracle : Oracle) (s : PStructure) :
    Except SolveErr (List ℚ × List (ℕ × (ℚ × ℚ))) × List (List (List ℚ) × List ℚ) :=
  match assembleEntries s s.springs with
  | Except.error e => (Except.error e, [])
  | Except.ok entries =>
    if (freeDofs s).isEmpty then
      (Except.ok (List.replicate s.ndofs 0,
        s.nodeIdsSorted.map (fun nid => (nid, ((0 : ℚ), (0 : ℚ))))), [])
    else
      match oracle (kffOf s entries) (ffOf s) with
      | SpsolveRes.ok uf fin => solveFinish s uf fin [(kffOf s entries, ffOf s)]
      | SpsolveRes.rankWarn =>
        match oracle (regularizeMat (kffOf s entries) (epsOf s entries)) (ffOf s) with
        | SpsolveRes.ok uf fin =>
          solveFinish s uf fin
            [(kffOf s entries, ffOf s),
             (regularizeMat (kffOf s entries) (epsOf s entries), ffOf s)]
        | SpsolveRes.rankWarn =>
          (Except.error SolveErr.rankWarnPropagated,
           [(kffOf s entries, ffOf s),
            (regularizeMat (kffOf s entries) (epsOf s entries), ffOf s)])
        | SpsolveRes.err =>
          (Except.error SolveErr.otherPropagated,
           [(kffOf s entries, ffOf s),
            (regularizeMat (kffOf s entries) (epsOf s entries), ffOf s)])
      | SpsolveRes.err =>
        match oracle (regularizeMat (kffOf s entries) (epsOf s entries)) (ffOf s) with
        | SpsolveRes.ok uf fin =>
          solveFinish s uf fin
            [(kffOf s entries, ffOf s),
             (regularizeMat (kffOf s entries) (epsOf s entries), ffOf s)]
        | _ =>
          (Except.error SolveErr.singularRetryFailed,
           [(kffOf s entries, ffOf s),
            (regularizeMat (kffOf s entries) (epsOf s entries), ffOf s)])

/-! ### Optimizer (`src/optimizer.py`) -/

open PStructure

/-- `is_connectivity_ok`: keep the protected ids that are present, vacuously
true when none is, else DFS from the first one and require that it reaches
all of them. -/
def isConnectivityOk (s : PStructure) (prot : List ℕ) : Bool :=
  match prot.filter (fun p => p ∈ s.idsFinset) with
  | [] => true
  | p :: rest =>
    (p :: rest).all (fun q => q ∈ reachSet s.neighbors s.idsFinset.card {p})

/-- `_is_solvable`: `solve_displacements` under `try/except Exception`. -/
def isSolvable (oracle : Oracle) (s : PStructure) : Option (List (ℕ × (ℚ × ℚ))) :=
  match (solveDisp oracle s).1 with
  | Except.ok r => some r.2
  | Except.error _ => none

/-- `_split_supports_and_loads`: protected ids present with a fixity flag are
supports; the remaining present protected ids are loads. -/
def supportsOf (s : PStructure) (prot : List ℕ) : List ℕ :=
  prot.filter (fun nid => decide (nid ∈ s.idsFinset) &&
    ((s.nodeLookup nid).map (fun n => n.fixed_x || n.fixed_z)).getD false)

/-- `_lastpath_mask`: every node when either side is empty, else the
intersection of the sets DFS-reachable from supports and from loads. -/
def lastpathMask (s : PStructure) (prot : List ℕ) : Finset ℕ :=
  let supports := supportsOf s prot
  let loads := prot.filter (fun nid => nid ∈ s.idsFinset ∧ ¬ nid ∈ supports)
  if supports.isEmpty ∨ loads.isEmpty then s.idsFinset
  else reachSet s.neighbors s.idsFinset.card supports.toFinset ∩
       reachSet s.neighbors s.idsFinset.card loads.toFinset

/-- `_bfs_distance_to_set` membership/distance: the BFS distance of `x` is
the least `k` whose k-step saturation ball around the targets contains `x`;
`none` when `x` is unreachable (absent from the BFS `dist` dict). -/
def bfsDistOpt (s : PStructure) (targets : List ℕ) (x : ℕ) : Option ℕ :=
  (List.range (s.idsFinset.card + 1)).findSome? (fun k =>
    if x ∈ reachSet s.neighbors k targets.toFinset then some k else none)

/-- Canonical undirected spring key `(min(i,j), max(i,j))`. -/
def canonKey (sp : PSpring) : ℕ × ℕ := (min sp.i sp.j, max sp.i sp.j)

/-- Displacement lookup `disp[n]` (keys are the current node ids; only
queried at present ids, default for totality). -/
def dispAt (disp : List (ℕ × (ℚ × ℚ))) (n : ℕ) : ℚ × ℚ :=
  ((disp.find? (fun p => p.1 = n)).map Prod.snd).getD (0, 0)

/-- One spring's energy contribution `0.5 * ue.T @ Ke @ ue` in
`_spring_energies` (Ke from the memoized cache; only applied to springs whose
endpoints have initial coordinates, default for totality). -/
def springEnergy (coords : ℕ → Option (ℚ × ℚ)) (disp : List (ℕ × (ℚ × ℚ)))
    (sp : PSpring) : ℚ :=
  let ui := dispAt disp sp.i
  let uj := dispAt disp sp.j
  let ke := (getKe coords sp).getD (fun _ _ => 0)
  (1 / 2) * quadForm ke ![ui.1, ui.2, uj.1, uj.2]

/-- The accumulated energy map entry of one canonical key: `_spring_energies`
sums the energies of all springs sharing the key. -/
def energyOfPair (coords : ℕ → Option (ℚ × ℚ)) (disp : List (ℕ × (ℚ × ℚ)))
    (springs : List PSpring) (p : ℕ × ℕ) : ℚ :=
  ((springs.filter (fun sp => canonKey sp = p)).map (springEnergy coords disp)).sum

/-- `_node_scores`: half of each incident energy-map entry per endpoint
(an entry with both endpoints equal contributes twice). -/
def nodeScore (s : PStructure) (coords : ℕ → Option (ℚ × ℚ))
    (disp : List (ℕ × (ℚ × ℚ))) (n : ℕ) : ℚ :=
  ∑ p ∈ (s.springs.map canonKey).toFinset,
    ((if p.1 = n then (1 / 2) * energyOfPair coords disp s.springs p else 0) +
     (if p.2 = n then (1 / 2) * energyOfPair coords disp s.springs p else 0))

/-- `_smooth_scores` with `alpha = 0.6`: keep the raw score at isolated
nodes, else mix it with the mean neighbour score. -/
def smoothScore (s : PStructure) (base : ℕ → ℚ) (n : ℕ) : ℚ :=
  let nbs := s.neighbors n
  if nbs = ∅ then base n
  else (3 / 5) * base n + (2 / 5) * ((∑ m ∈ nbs, base m) / (nbs.card : ℚ))

/-- Comparison of effective removal costs.  The source sorts by
`eff[n] = s / (d+1)**1.6 / (di+1)**0.8` with nonnegative scores `s`; since
`x ↦ x^5` is monotone on nonnegative reals and `1.6 = 8/5`, `0.8 = 4/5`,
`eff₁ ≤ eff₂` iff
`s₁^5 · (d₂+1)^8 (di₂+1)^4 ≤ s₂^5 · (d₁+1)^8 (di₁+1)^4`, which is exact
rational arithmetic.  A key is `(score, degree, distance)`. -/
def effLE (a b : ℚ × ℕ × ℕ) : Bool :=
  a.1 ^ 5 * (((b.2.1 + 1 : ℚ)) ^ 8 * ((b.2.2 + 1 : ℚ)) ^ 4) ≤
    b.1 ^ 5 * (((a.2.1 + 1 : ℚ)) ^ 8 * ((a.2.2 + 1 : ℚ)) ^ 4)

/-- `optimize_until_target.compute_k` (optimizer.py lines 209–230):
base batch `clamp(ceil(0.012·N), 8, 120)`, tightened by the remaining-progress
ratio and the absolute mass ratio, both with `max(·, 1e-12)`-guarded
denominators, and at least 1. -/
def computeK (startMass target curMass : ℚ) (nNodes : ℕ) : ℤ :=
  let massRatio := curMass / max startMass (1 / 10 ^ 12)
  let remainingRatio := (curMass - target) / max curMass (1 / 10 ^ 12)
  let k0 : ℤ := Int.ceil ((12 / 1000 : ℚ) * nNodes)
  let k1 : ℤ := max 8 (min 120 k0)
  let k2 : ℤ := if remainingRatio < 1 / 5 then min k1 25 else k1
  let k3 : ℤ := if remainingRatio < 2 / 25 then min k2 8 else k2
  let k4 : ℤ := if remainingRatio < 3 / 100 then 1 else k3
  let k5 : ℤ := if massRatio < 3 / 4 then min k4 10 else k4
  let k6 : ℤ := if massRatio < 13 / 20 then min k5 5 else k5
  let k7 : ℤ := if massRatio < 11 / 20 then 1 else k6
  max 1 k7

/-- The batch-size formula exactly as the spec states it (section 4.6):
`base = clamp(⌈0.012·N⌉, 8, 120)`, ratios `(M−M*)/M` and `M/M₀` with
unguarded denominators, same tightening thresholds, `k ≥ 1`.  This second
definition follows the spec's words, for comparison against `computeK`. -/
def computeKSpecFormula (startMass target curMass : ℚ) (nNodes : ℕ) : ℤ :=
  let massRatio := curMass / startMass
  let remainingRatio := (curMass - target) / curMass
  let k0 : ℤ := Int.ceil ((12 / 1000 : ℚ) * nNodes)
  let k1 : ℤ := max 8 (min 120 k0)
  let k2 : ℤ := if remainingRatio < 1 / 5 then min k1 25 else k1
  let k3 : ℤ := if remainingRatio < 2 / 25 then min k2 8 else k2
  let k4 : ℤ := if remainingRatio < 3 / 100 then 1 else k3
  let k5 : ℤ := if massRatio < 3 / 4 then min k4 10 else k4
  let k6 : ℤ := if massRatio < 13 / 20 then min k5 5 else k5
  let k7 : ℤ := if massRatio < 11 / 20 then 1 else k6
  max 1 k7

/-- `_prune_degree0` / `_prune_degree01_final`: bounded rounds; each round
recomputes the adjacency, collects the non-protected nodes of degree at most
`dmax` and removes them (re-checking presence and protection per removal);
stop early when a round collects nothing. -/
def pruneDeg (prot : List ℕ) (dmax : ℕ) : ℕ → PStructure → PStructure
  | 0, s => s
  | r + 1, s =>
    let toRemove := s.idList.filter (fun nid => ¬ nid ∈ prot ∧ s.degOf nid ≤ dmax)
    if toRemove.isEmpty then s
    else
      pruneDeg prot dmax r
        (toRemove.foldl (fun acc nid =>
          if nid ∈ acc.idsFinset ∧ ¬ nid ∈ prot then acc.removeNode nid else acc) s)

/-- The removal loop of one batch attempt (optimizer.py lines 280–293):
walk the pool until `attempt_k` removals; skip absent or protected ids;
after each removal check protected connectivity and on failure revert to the
snapshot with `removed = 0`. -/
def removeBatch (prot : List ℕ) (attemptK : ℕ) (snap : PStructure) :
    List ℕ → PStructure → ℕ → PStructure × ℕ
  | [], cur, removed => (cur, removed)
  | nid :: rest, cur, removed =>
    if attemptK ≤ removed then (cur, removed)
    else if ¬ nid ∈ cur.idsFinset ∨ nid ∈ prot then
      removeBatch prot attemptK snap rest cur removed
    else
      let cur2 := cur.removeNode nid
      if isConnectivityOk cur2 prot then removeBatch prot attemptK snap rest cur2 (removed + 1)
      else (snap, 0)

/-- Bookkeeping parameters of one optimization run (closure variables of
`optimize_until_target` plus the two external oracles). -/
structure OptParams where
  oracle : Oracle
  rngF : ℕ → List ℕ → ℕ → List ℕ × ℕ
  coords : ℕ → Option (ℚ × ℚ)
  prot : List ℕ
  target : ℚ
  startMass : ℚ
  topN : ℕ
  patience : ℕ

/-- One batch attempt: snapshot, remove up to `attempt_k` pool nodes,
degree-0 prune (20 rounds), then try to solve; `none` reverts to the
snapshot (the entry value of `current`). -/
def tryBatch (P : OptParams) (attemptK : ℕ) (current : PStructure) (pool : List ℕ) :
    Option (PStructure × List (ℕ × (ℚ × ℚ))) :=
  let br := removeBatch P.prot attemptK current pool current 0
  if br.2 = 0 then none
  else
    let s2 := pruneDeg P.prot 0 20 br.1
    match isSolvable P.oracle s2 with
    | some d => some (s2, d)
    | none => none

/-- The halving loop over batch attempts (`for _ in range(rollback_halving + 1)`
with `attempt_k = max(1, attempt_k // 2)` after a failed attempt).  A failed
attempt leaves `current` at the snapshot it started from. -/
def attemptLoop (P : OptParams) : ℕ → ℕ → PStructure → List ℕ →
    Option (PStructure × List (ℕ × (ℚ × ℚ)))
  | 0, _, _, _ => none
  | f + 1, attemptK, current, pool =>
    match tryBatch P attemptK current pool with
    | some r => some r
    | none => attemptLoop P f (max 1 (attemptK / 2)) current pool

/-- The stagnation-escape scan (optimizer.py lines 332–351): try single-node
removals through the expanded candidate list; each trial copies `current`,
removes one node, requires protected connectivity, degree-0 prunes
(30 rounds) and must solve. -/
def scanSingles (P : OptParams) : List ℕ → PStructure →
    Option (PStructure × List (ℕ × (ℚ × ℚ)))
  | [], _ => none
  | nid :: rest, current =>
    if nid ∈ P.prot ∨ ¬ nid ∈ current.idsFinset then scanSingles P rest current
    else
      let trial := current.removeNode nid
      if ¬ isConnectivityOk trial P.prot then scanSingles P rest current
      else
        let trial2 := pruneDeg P.prot 0 30 trial
        match isSolvable P.oracle trial2 with
        | some d => some (trial2, d)
        | none => scanSingles P rest current

/-- Human-readable status of `optimize_until_target`, one constructor per
returned message string. -/
inductive OptStatus where
  | alreadyBelow
  | initialDisconnected
  | initialUnsolvable
  | noRemovable
  | stuck
  | targetReached
  | maxSteps
deriving DecidableEq, Repr

/-- The mutable locals of the `while` loop. -/
structure LoopSt where
  current : PStructure
  disp : List (ℕ × (ℚ × ℚ))
  steps : ℕ
  stalled : ℕ
  rngSt : ℕ
deriving DecidableEq

/-- The effective-cost sort key of one node in the current iteration:
(smoothed score, degree, BFS distance to the protected set); eff itself is
`score / (deg+1)**1.6 / (dist+1)**0.8` and is only used through the
comparison `effLE`. -/
def effKey (P : OptParams) (st : LoopSt) (n : ℕ) : ℚ × ℕ × ℕ :=
  (smoothScore st.current (fun m => nodeScore st.current P.coords st.disp m) n,
   st.current.degOf n,
   (bfsDistOpt st.current (P.prot.filter (fun p => p ∈ st.current.idsFinset)) n).getD 0)

/-- `removable`: the non-protected current nodes (in dict order), restricted
to the last-path mask when that restriction is nonempty. -/
def removableOf (P : OptParams) (st : LoopSt) : List ℕ :=
  let all := st.current.idList.filter (fun nid => ¬ nid ∈ P.prot)
  let masked := all.filter (fun nid => nid ∈ lastpathMask st.current P.prot)
  if masked.isEmpty then all else masked

/-- `removable` after the in-place stable ascending sort by effective cost. -/
def removableSorted (P : OptParams) (st : LoopSt) : List ℕ :=
  sSort (fun a b => effLE (effKey P st a) (effKey P st b)) (removableOf P st)

/-- The candidate pool of the batch attempt:
`removable[: min(len(removable), max(150, top_n_candidates))]`. -/
def poolOf (P : OptParams) (st : LoopSt) : List ℕ :=
  (removableSorted P st).take (min (removableSorted P st).length (max 150 P.topN))

/-- The expanded candidate list of the stagnation escape together with the
rng state after the optional tail sample (`stalled` already incremented;
optimizer.py lines 316–329). -/
def stagnationCandidates (P : OptParams) (st : LoopSt) : List ℕ × ℕ :=
  let expandSorted :=
    if P.patience ≤ st.stalled + 1 then min (removableSorted P st).length 8000
    else min (removableSorted P st).length (max 2000 (max 150 P.topN * 5))
  let cands0 := (removableSorted P st).take expandSorted
  if expandSorted < (removableSorted P st).length then
    let tail := (removableSorted P st).drop expandSorted
    let sampleN := min 2000 tail.length
    if 0 < sampleN then
      let pr := P.rngF st.rngSt tail sampleN
      (cands0 ++ pr.1, pr.2)
    else (cands0, st.rngSt)
  else (cands0, st.rngSt)

/-- One iteration of the `while` loop body (optimizer.py lines 232–354):
score, sort, batch attempt with up to eight halvings, else stagnation escape.
`Sum.inl` is the next loop state (an accepted iteration, either by batch or
by single-node escape, with `steps + 1` and `stalled = 0`); `Sum.inr` is an
early return with the current structure. -/
def loopIter (P : OptParams) (st : LoopSt) : LoopSt ⊕ (Option PStructure × ℕ × OptStatus) :=
  if (removableOf P st).isEmpty then
    Sum.inr (some st.current, st.steps, OptStatus.noRemovable)
  else
    match attemptLoop P 9
        (computeK P.startMass P.target st.current.totalMass st.current.nodes.length).toNat
        st.current (poolOf P st) with
    | some r => Sum.inl ⟨r.1, r.2, st.steps + 1, 0, st.rngSt⟩
    | none =>
      match scanSingles P (stagnationCandidates P st).1 st.current with
      | some r => Sum.inl ⟨r.1, r.2, st.steps + 1, 0, (stagnationCandidates P st).2⟩
      | none => Sum.inr (some st.current, st.steps, OptStatus.stuck)

/-- The post-loop epilogue: final degree-≤1 pruning and `TargetReached` when
the target was met, else the `max_steps` message. -/
def finishRun (P : OptParams) (st : LoopSt) : Option PStructure × ℕ × OptStatus :=
  if st.current.totalMass ≤ P.target then
    (some (pruneDeg P.prot 1 120 st.current), st.steps, OptStatus.targetReached)
  else (some st.current, st.steps, OptStatus.maxSteps)

/-- The `while` loop with explicit fuel (each continuing iteration increases
`steps` by one and the loop guard requires `steps < max_steps`, so
`max_steps + 1` fuel makes the fuel-exhaustion branch dead code).  The second
component collects every committed state, i.e. the value of `current` at each
loop-guard evaluation. -/
def runLoop (P : OptParams) (maxSteps : ℕ) :
    ℕ → LoopSt → List PStructure → (Option PStructure × ℕ × OptStatus) × List PStructure
  | 0, st, trace => (finishRun P st, trace)
  | fuel + 1, st, trace =>
    if P.target < st.current.totalMass ∧ st.steps < maxSteps then
      match loopIter P st with
      | Sum.inr res => (res, trace)
      | Sum.inl st2 => runLoop P maxSteps fuel st2 (trace ++ [st2.current])
    else (finishRun P st, trace)

/-- `optimize_until_target` together with the list of committed states (the
initial accepted state and the state after each accepted iteration).
`copy.deepcopy(struct)` is a structural copy, i.e. the same value; the Ke
cache closes over the coordinates of the INITIAL structure. -/
def optimizeFull (oracle : Oracle) (rngF : ℕ → List ℕ → ℕ → List ℕ × ℕ)
    (struct : PStructure) (prot : List ℕ) (targetMass : ℚ) (maxSteps : ℕ)
    (topN : ℕ) (patience : ℕ) :
    (Option PStructure × ℕ × OptStatus) × List PStructure :=
  let startMass := struct.totalMass
  if startMass ≤ targetMass then ((some struct, 0, OptStatus.alreadyBelow), [])
  else
    let current := struct
    let coords := fun nid => (struct.nodeLookup nid).map (fun n => (n.x, n.z))
    if ¬ isConnectivityOk current prot then
      ((none, 0, OptStatus.initialDisconnected), [])
    else
      match isSolvable oracle current with
      | none => ((none, 0, OptStatus.initialUnsolvable), [])
      | some disp =>
        let P : OptParams :=
          ⟨oracle, rngF, coords, prot, targetMass, startMass, topN, patience⟩
        runLoop P maxSteps (maxSteps + 1) ⟨current, disp, 0, 0, 0⟩ [current]

/-- `optimize_until_target`: the returned triple
`(structure-or-null, steps, status)`. -/
def optimize (oracle : Oracle) (rngF : ℕ → List ℕ → ℕ → List ℕ × ℕ)
    (struct : PStructure) (prot : List ℕ) (targetMass : ℚ) (maxSteps : ℕ)
    (topN : ℕ) (patience : ℕ) : Option PStructure × ℕ × OptStatus :=
  (optimizeFull oracle rngF struct prot targetMass maxSteps topN patience).1

/-! ### Semantic predicates and the caller-frame wrapper -/

deriving instance DecidableEq for Except

/-- Spring-path reachability between node ids: the reflexive-transitive
closure of the adjacency relation, i.e. what `_dfs` explores. -/
def Reaches (s : PStructure) (p q : ℕ) : Prop :=
  Relation.ReflTransGen (edgeRel s.neighbors) p q

/-- Edge chains of an explicit length; `Reaches` with a step count, used to
induct over reachability. -/
def edgeChain (nb : ℕ → Finset ℕ) : ℕ → ℕ → ℕ → Prop
  | 0, u, w => u = w
  | n + 1, u, w => ∃ x, x ∈ nb u ∧ edgeChain nb n x w

/-- Every id of `prot` is a current node of `s`. -/
def protAllPresent (prot : List ℕ) (s : PStructure) : Prop :=
  ∀ p ∈ prot, p ∈ s.idsFinset

/-- All protected ids are mutually reachable via springs. -/
def protMutual (prot : List ℕ) (s : PStructure) : Prop :=
  ∀ p ∈ prot, ∀ q ∈ prot, Reaches s p q

/-- The loop invariant carried through the optimizer: protected ids present
and `is_connectivity_ok` true. -/
def protOK (prot : List ℕ) (s : PStructure) : Prop :=
  protAllPresent prot s ∧ isConnectivityOk s prot = true

/-- The main diagonal of a dense row-major matrix (`K_ff.diagonal()`). -/
def matDiag (M : List (List ℚ)) : List ℚ :=
  M.enum.map (fun ir => ir.2.getD ir.1 0)

/-- The coordinate table `_make_ke_cache` closes over:
`{nid: (x, z)}` of the initial structure. -/
def coordsOf (s : PStructure) : ℕ → Option (ℚ × ℚ) :=
  fun nid => (s.nodeLookup nid).map (fun n => (n.x, n.z))

/-- Caller-visible frame of `optimize_until_target`.  The source reads the
caller's object once (`start_mass`, the `copy.deepcopy(struct)` at
optimizer.py line 190, and the coordinate table of `_make_ke_cache`), and
every mutating operation — `remove_node`, the pruning passes, the
`current = snapshot` rollbacks — is applied to that deep copy or to further
copies of it (`snapshot`, `trial`); no statement assigns through the caller's
reference.  The wrapper makes the caller's store explicit: the result is
computed from the value read at `ref` and the store itself is returned as the
call leaves it. -/
def optimizeOnStore (oracle : Oracle) (rngF : ℕ → List ℕ → ℕ → List ℕ × ℕ)
    (store : ℕ → PStructure) (ref : ℕ) (prot : List ℕ) (targetMass : ℚ)
    (maxSteps : ℕ) (topN : ℕ) (patience : ℕ) :
    (Option PStructure × ℕ × OptStatus) × (ℕ → PStructure) :=
  (optimize oracle rngF (store ref) prot targetMass maxSteps topN patience, store)

/-! ### Concrete inputs for witnesses and counterexamples -/

/-- An oracle that always reports a generic solver failure; the all-fixed
structures below never consult it. -/
def oracleErr : Oracle := fun _ _ => SpsolveRes.err

/-- An oracle that always flags exact singularity (`MatrixRankWarning`). -/
def oracleRankWarn : Oracle := fun _ _ => SpsolveRes.rankWarn

/-- An oracle that always returns the zero vector of the right size, flagged
finite. -/
def oracleZero : Oracle := fun _ rhs => SpsolveRes.ok (rhs.map (fun _ => 0)) true

/-- A tail chooser that never picks anything. -/
def rngNone : ℕ → List ℕ → ℕ → List ℕ × ℕ := fun st _ _ => ([], st)

/-- A fully fixed node at `(xc, 0)` with the given mass. -/
def fixedNode (nid : ℕ) (xc : ℚ) (m : ℚ) : PNode :=
  { id := nid, x := xc, z := 0, fixed_x := true, fixed_z := true, mass := m }

/-- One fully fixed unit-mass node, id 1, no springs. -/
def structOneNode : PStructure := { nodes := [(1, fixedNode 1 0 1)], springs := [] }

/-- Two isolated fully fixed nodes, the non-protected one of mass −5. -/
def structNegMass : PStructure :=
  { nodes := [(1, fixedNode 1 0 1), (2, fixedNode 2 1 (-5))], springs := [] }

/-- Two fully fixed nodes at the same position joined by a spring: the
zero-length configuration of scenario (S5). -/
def structZeroLen : PStructure :=
  { nodes := [(1, fixedNode 1 0 1), (2, fixedNode 2 0 1)], springs := [⟨1, 2, 100⟩] }

/-- Two free nodes at distance 1 joined by a unit spring: a structure whose
solve reaches the `spsolve` call. -/
def structFree : PStructure :=
  { nodes := [(1, { id := 1, x := 0, z := 0 }), (2, { id := 2, x := 1, z := 0 })]
    springs := [⟨1, 2, 1⟩] }

/-- Two fully fixed connected nodes (protected: node 1). -/
def structTwoConn : PStructure :=
  { nodes := [(1, fixedNode 1 0 1), (2, fixedNode 2 1 1)], springs := [⟨1, 2, 5⟩] }

/-- Run parameters of the two-node witness iteration: protected node 1,
target 0, start mass 2. -/
def twoConnParams : OptParams :=
  ⟨oracleErr, rngNone, coordsOf structTwoConn, [1], 0, 2, 400, 80⟩

/-- The loop state entering the witness iteration on `structTwoConn`. -/
def twoConnSt : LoopSt := ⟨structTwoConn, [(1, (0, 0)), (2, (0, 0))], 0, 0, 0⟩

/-- The loop state after the witness iteration accepted the removal of
node 2. -/
def twoConnAfter : LoopSt := ⟨structOneNode, [(1, (0, 0))], 1, 0, 0⟩

/-- Run parameters of the negative-mass counterexample iteration: protected
node 1, target −10, start mass −4. -/
def negMassParams : OptParams :=
  ⟨oracleErr, rngNone, coordsOf structNegMass, [1], -10, -4, 400, 80⟩

/-- The loop state entering the counterexample iteration: the initial
committed state of the run on `structNegMass`. -/
def negMassSt : LoopSt := ⟨structNegMass, [(1, (0, 0)), (2, (0, 0))], 0, 0, 0⟩
lemma subset_satStep (nb : ℕ → Finset ℕ) (A : Finset ℕ) : A ⊆ satStep nb A :=
  Finset.subset_union_left

lemma satStep_subset {nb : ℕ → Finset ℕ} {A U : Finset ℕ} (hA : A ⊆ U)
    (hnb : ∀ x, nb x ⊆ U) : satStep nb A ⊆ U := by
  intro x hx
  rcases Finset.mem_union.mp hx with h | h
  · exact hA h
  · rcases Finset.mem_biUnion.mp h with ⟨y, _, hy⟩
    exact hnb y hy

lemma subset_reachSet (nb : ℕ → Finset ℕ) (k : ℕ) (A : Finset ℕ) :
    A ⊆ reachSet nb k A := by
  induction k with
  | zero => simp [reachSet]
  | succ n ih =>
    intro x hx
    have : reachSet nb (n + 1) A = satStep nb (reachSet nb n A) := by
      simp [reachSet, Function.iterate_succ_apply']
    rw [this]
    exact subset_satStep _ _ (ih hx)

lemma reachSet_succ (nb : ℕ → Finset ℕ) (k : ℕ) (A : Finset ℕ) :
    reachSet nb (k + 1) A = satStep nb (reachSet nb k A) := by
  simp [reachSet, Function.iterate_succ_apply']

lemma reachSet_subset {nb : ℕ → Finset ℕ} {A U : Finset ℕ} (hA : A ⊆ U)
    (hnb : ∀ x, nb x ⊆ U) (k : ℕ) : reachSet nb k A ⊆ U := by
  induction k with
  | zero => simpa [reachSet] using hA
  | succ n ih => rw [reachSet_succ]; exact satStep_subset ih hnb

lemma satStep_fix_iterate {nb : ℕ → Finset ℕ} {B : Finset ℕ}
    (h : satStep nb B = B) (m : ℕ) : (satStep nb)^[m] B = B := by
  induction m with
  | zero => rfl
  | succ n ih => rw [Function.iterate_succ_apply', ih, h]

lemma reachSet_card_grow {nb : ℕ → Finset ℕ} {A : Finset ℕ} (k : ℕ)
    (h : ∀ j < k, satStep nb (reachSet nb j A) ≠ reachSet nb j A) :
    A.card + k ≤ (reachSet nb k A).card := by
  induction k with
  | zero => simp [reachSet]
  | succ n ih =>
    have h1 : A.card + n ≤ (reachSet nb n A).card :=
      ih (fun j hj => h j (Nat.lt_succ_of_lt hj))
    have h2 : reachSet nb n A ⊂ reachSet nb (n + 1) A := by
      rw [reachSet_succ]
      exact Finset.ssubset_iff_subset_ne.mpr
        ⟨subset_satStep _ _, fun he => h n (Nat.lt_succ_self n) he.symm⟩
    have := Finset.card_lt_card h2
    omega

/-- After `U.card` rounds the saturation is a fixpoint. -/
lemma reachSet_fixed {nb : ℕ → Finset ℕ} {A U : Finset ℕ} (hA : A ⊆ U)
    (hnb : ∀ x, nb x ⊆ U) :
    satStep nb (reachSet nb U.card A) = reachSet nb U.card A := by
  by_cases hex : ∃ j < U.card, satStep nb (reachSet nb j A) = reachSet nb j A
  · rcases hex with ⟨j, hj, hfix⟩
    have hiter : reachSet nb U.card A = reachSet nb j A := by
      have : U.card = (U.card - j) + j := by omega
      rw [reachSet, this, Function.iterate_add_apply]
      exact satStep_fix_iterate hfix _
    rw [hiter]; exact hfix
  · push_neg at hex
    by_cases hA0 : A = ∅
    · subst hA0
      have hstep : satStep nb (∅ : Finset ℕ) = ∅ := by simp [satStep]
      have : reachSet nb U.card (∅ : Finset ℕ) = ∅ := satStep_fix_iterate hstep _
      rw [this]; exact hstep
    · have hcard : 1 ≤ A.card := Finset.card_pos.mpr (Finset.nonempty_iff_ne_empty.mpr hA0)
      have hgrow := reachSet_card_grow U.card hex
      have hsub := reachSet_subset hA hnb U.card
      have := Finset.card_le_card hsub
      omega

lemma reachSet_sound {nb : ℕ → Finset ℕ} {A : Finset ℕ} (k : ℕ) :
    ∀ x ∈ reachSet nb k A, ∃ a ∈ A, Relation.ReflTransGen (edgeRel nb) a x := by
  induction k with
  | zero => intro x hx; exact ⟨x, by simpa [reachSet] using hx, Relation.ReflTransGen.refl⟩
  | succ n ih =>
    intro x hx
    rw [reachSet_succ] at hx
    rcases Finset.mem_union.mp hx with h | h
    · exact ih x h
    · rcases Finset.mem_biUnion.mp h with ⟨y, hy, hxy⟩
      rcases ih y hy with ⟨a, ha, hr⟩
      exact ⟨a, ha, hr.tail hxy⟩

/-- Membership in the saturated set is reachability along the edge
relation. -/
theorem mem_reachSet_iff {nb : ℕ → Finset ℕ} {A U : Finset ℕ} (hA : A ⊆ U)
    (hnb : ∀ x, nb x ⊆ U) (x : ℕ) :
    x ∈ reachSet nb U.card A ↔
      ∃ a ∈ A, Relation.ReflTransGen (edgeRel nb) a x := by
  constructor
  · exact reachSet_sound U.card x
  · rintro ⟨a, ha, hr⟩
    induction hr with
    | refl => exact subset_reachSet nb U.card A ha
    | tail _ hbc ih =>
      have hfix := reachSet_fixed hA hnb
      rw [← hfix]
      exact Finset.mem_union.mpr (Or.inr (Finset.mem_biUnion.mpr ⟨_, ih, hbc⟩))

/-- Reflexive-transitive closure of a symmetric relation is symmetric. -/
lemma rtg_symm {r : ℕ → ℕ → Prop} (hs : ∀ u v, r u v → r v u) {u v : ℕ}
    (h : Relation.ReflTransGen r u v) : Relation.ReflTransGen r v u := by
  induction h with
  | refl => exact Relation.ReflTransGen.refl
  | tail _ hbc ih => exact Relation.ReflTransGen.head (hs _ _ hbc) ih

/-! ### Structural lemmas about adjacency and node removal -/

lemma mem_neighbors_iff {s : PStructure} {n m : ℕ} :
    m ∈ s.neighbors n ↔ ∃ sp ∈ s.springs, sp.i ∈ s.idsFinset ∧ sp.j ∈ s.idsFinset ∧
      ((sp.i = n ∧ sp.j = m) ∨ (sp.j = n ∧ sp.i = m)) := by
  unfold PStructure.neighbors
  simp only [List.mem_toFinset, List.mem_map, List.mem_filter, decide_eq_true_eq]
  constructor
  · rintro ⟨sp, ⟨hsp, hi, hj, hn⟩, hm⟩
    refine ⟨sp, hsp, hi, hj, ?_⟩
    by_cases hin : sp.i = n
    · exact Or.inl ⟨hin, by simpa [hin] using hm⟩
    · rcases hn with h | h
      · exact absurd h hin
      · exact Or.inr ⟨h, by simpa [hin] using hm⟩
  · rintro ⟨sp, hsp, hi, hj, h⟩
    rcases h with ⟨h1, h2⟩ | ⟨h1, h2⟩
    · exact ⟨sp, ⟨hsp, hi, hj, Or.inl h1⟩, by simp [h1, h2]⟩
    · by_cases hin : sp.i = n
      · refine ⟨sp, ⟨hsp, hi, hj, Or.inl hin⟩, ?_⟩
        have hmn : m = n := by rw [← h2, hin]
        rw [if_pos hin, h1, hmn]
      · exact ⟨sp, ⟨hsp, hi, hj, Or.inr h1⟩, by rw [if_neg hin]; exact h2⟩

lemma neighbors_symm {s : PStructure} {n m : ℕ} :
    m ∈ s.neighbors n ↔ n ∈ s.neighbors m := by
  rw [mem_neighbors_iff, mem_neighbors_iff]
  constructor
  · rintro ⟨sp, hsp, hi, hj, h | h⟩
    · exact ⟨sp, hsp, hi, hj, Or.inr ⟨h.2, h.1⟩⟩
    · exact ⟨sp, hsp, hi, hj, Or.inl ⟨h.2, h.1⟩⟩
  · rintro ⟨sp, hsp, hi, hj, h | h⟩
    · exact ⟨sp, hsp, hi, hj, Or.inr ⟨h.2, h.1⟩⟩
    · exact ⟨sp, hsp, hi, hj, Or.inl ⟨h.2, h.1⟩⟩

lemma neighbors_subset_ids {s : PStructure} (n : ℕ) :
    s.neighbors n ⊆ s.idsFinset := by
  intro m hm
  rcases mem_neighbors_iff.mp hm with ⟨sp, _, hi, hj, h | h⟩
  · exact h.2 ▸ hj
  · exact h.2 ▸ hi

lemma idsFinset_removeNode (s : PStructure) (v : ℕ) :
    (s.removeNode v).idsFinset = s.idsFinset.erase v := by
  unfold PStructure.removeNode
  by_cases hv : v ∈ s.idsFinset
  · rw [if_pos hv]
    ext x
    simp only [PStructure.idsFinset, PStructure.idList, List.mem_toFinset,
      List.mem_map, List.mem_filter, Finset.mem_erase, decide_eq_true_eq]
    constructor
    · rintro ⟨p, ⟨hp, hne⟩, rfl⟩
      exact ⟨hne, ⟨p, hp, rfl⟩⟩
    · rintro ⟨hne, p, hp, rfl⟩
      exact ⟨p, ⟨hp, hne⟩, rfl⟩
  · rw [if_neg hv, Finset.erase_eq_of_not_mem hv]

lemma springs_removeNode {s : PStructure} {v : ℕ} (hv : v ∈ s.idsFinset) :
    (s.removeNode v).springs = s.springs.filter (fun sp => sp.i ≠ v ∧ sp.j ≠ v) := by
  unfold PStructure.removeNode
  rw [if_pos hv]

lemma neighbors_removeNode {s : PStructure} {v x : ℕ} (hx : x ≠ v) :
    (s.removeNode v).neighbors x = (s.neighbors x).erase v := by
  by_cases hv : v ∈ s.idsFinset
  · ext m
    rw [Finset.mem_erase, mem_neighbors_iff, mem_neighbors_iff, springs_removeNode hv]
    simp only [List.mem_filter, idsFinset_removeNode, Finset.mem_erase, decide_eq_true_eq]
    constructor
    · rintro ⟨sp, ⟨hsp, hiv, hjv⟩, ⟨_, hi⟩, ⟨_, hj⟩, h⟩
      refine ⟨?_, sp, hsp, hi, hj, h⟩
      rcases h with ⟨_, h2⟩ | ⟨_, h2⟩
      · exact h2 ▸ hjv
      · exact h2 ▸ hiv
    · rintro ⟨hmv, sp, hsp, hi, hj, h⟩
      have hends : sp.i ≠ v ∧ sp.j ≠ v := by
        rcases h with ⟨h1, h2⟩ | ⟨h1, h2⟩
        · exact ⟨h1 ▸ hx, h2 ▸ hmv⟩
        · exact ⟨h2 ▸ hmv, h1 ▸ hx⟩
      exact ⟨sp, ⟨hsp, hends.1, hends.2⟩, ⟨hends.1, hi⟩, ⟨hends.2, hj⟩, h⟩
  · have h1 : s.removeNode v = s := by unfold PStructure.removeNode; rw [if_neg hv]
    have h2 : v ∉ s.neighbors x := fun hmem => hv (neighbors_subset_ids x hmem)
    rw [h1, Finset.erase_eq_of_not_mem h2]

lemma neighbors_removeNode_self (s : PStructure) (v : ℕ) :
    (s.removeNode v).neighbors v = ∅ := by
  by_cases hv : v ∈ s.idsFinset
  · ext m
    simp only [Finset.not_mem_empty, iff_false]
    intro hm
    rcases mem_neighbors_iff.mp hm with ⟨sp, hsp, _, _, h⟩
    rw [springs_removeNode hv, List.mem_filter] at hsp
    have := of_decide_eq_true hsp.2
    rcases h with ⟨h1, _⟩ | ⟨h1, _⟩
    · exact this.1 h1
    · exact this.2 h1
  · have h1 : s.removeNode v = s := by unfold PStructure.removeNode; rw [if_neg hv]
    ext m
    simp only [Finset.not_mem_empty, iff_false]
    intro hm
    rw [h1] at hm
    exact hv (neighbors_subset_ids m (neighbors_symm.mp hm))

lemma neighbors_removeNode_subset (s : PStructure) (v x : ℕ) :
    (s.removeNode v).neighbors x ⊆ s.neighbors x := by
  by_cases hx : x = v
  · subst hx; rw [neighbors_removeNode_self]; exact Finset.empty_subset _
  · rw [neighbors_removeNode hx]; exact Finset.erase_subset _ _

lemma nodes_removeNode_subset (s : PStructure) (v : ℕ) :
    ∀ p ∈ (s.removeNode v).nodes, p ∈ s.nodes := by
  unfold PStructure.removeNode
  by_cases hv : v ∈ s.idsFinset
  · rw [if_pos hv]; intro p hp; exact (List.mem_filter.mp hp).1
  · rw [if_neg hv]; intro p hp; exact hp

lemma sum_filter_le_of_nonneg {l : List (ℕ × PNode)} (pred : ℕ × PNode → Bool)
    (h : ∀ p ∈ l, 0 ≤ p.2.mass) :
    ((l.filter pred).map (fun p => p.2.mass)).sum ≤ (l.map (fun p => p.2.mass)).sum := by
  induction l with
  | nil => simp
  | cons a t ih =>
    have ht : ∀ p ∈ t, 0 ≤ p.2.mass := fun p hp => h p (List.mem_cons_of_mem a hp)
    by_cases ha : pred a
    · simp only [List.filter_cons, ha, if_pos, List.map_cons, List.sum_cons]
      exact add_le_add_left (ih ht) _
    · simp only [List.filter_cons, ha, Bool.false_eq_true, if_false, List.map_cons, List.sum_cons]
      have := ih ht
      have h0 : 0 ≤ a.2.mass := h a (List.mem_cons_self a t)
      linarith

lemma totalMass_removeNode_le {s : PStructure} (v : ℕ)
    (h : ∀ p ∈ s.nodes, 0 ≤ p.2.mass) :
    (s.removeNode v).totalMass ≤ s.totalMass := by
  unfold PStructure.removeNode
  by_cases hv : v ∈ s.idsFinset
  · rw [if_pos hv]
    exact sum_filter_le_of_nonneg _ h
  · rw [if_neg hv]

/-! ### Reachability surgery: deleting a node of degree at most one -/

lemma edgeChain_snoc {nb : ℕ → Finset ℕ} {n : ℕ} :
    ∀ {u b c : ℕ}, edgeChain nb n u b → c ∈ nb b → edgeChain nb (n + 1) u c := by
  induction n with
  | zero =>
    intro u b c h hc
    exact ⟨c, by rw [show u = b from h]; exact hc, rfl⟩
  | succ m ih =>
    rintro u b c ⟨x, hx, hch⟩ hc
    exact ⟨x, hx, ih hch hc⟩

lemma rtg_iff_edgeChain {nb : ℕ → Finset ℕ} {u w : ℕ} :
    Relation.ReflTransGen (edgeRel nb) u w ↔ ∃ n, edgeChain nb n u w := by
  constructor
  · intro h
    induction h with
    | refl => exact ⟨0, rfl⟩
    | tail _ hbc ih =>
      obtain ⟨n, hc⟩ := ih
      exact ⟨n + 1, edgeChain_snoc hc hbc⟩
  · rintro ⟨n, h⟩
    induction n generalizing u with
    | zero => rw [show u = w from h]
    | succ m ih =>
      obtain ⟨x, hx, hc⟩ := h
      exact Relation.ReflTransGen.head hx (ih hc)

lemma edgeChain_delete_leaf {nb nb2 : ℕ → Finset ℕ} {v : ℕ}
    (hsym : ∀ a b, b ∈ nb a → a ∈ nb b) (hdeg : (nb v).card ≤ 1)
    (hnb2 : ∀ a b, a ≠ v → b ≠ v → b ∈ nb a → b ∈ nb2 a) :
    ∀ n u w, edgeChain nb n u w → u ≠ v → w ≠ v →
      Relation.ReflTransGen (edgeRel nb2) u w := by
  intro n
  induction n using Nat.strong_induction_on with
  | _ n ih =>
    intro u w hch hu hw
    match n, hch with
    | 0, h => rw [show u = w from h]
    | 1, ⟨x, hx, hc⟩ =>
      have hxw : x = w := hc
      subst hxw
      exact Relation.ReflTransGen.single (hnb2 u x hu hw hx)
    | n + 2, ⟨x, hx, hc⟩ =>
      by_cases hxv : x = v
      · subst hxv
        obtain ⟨b, hb, hcb⟩ := hc
        have hu2 : u ∈ nb x := hsym u x hx
        have hbu : b = u := Finset.card_le_one.mp hdeg b hb u hu2
        subst hbu
        exact ih n (by omega) b w hcb hu hw
      · exact Relation.ReflTransGen.head (hnb2 u x hu hxv hx)
          (ih (n + 1) (by omega) x w hc hxv hw)

lemma reaches_removeNode_leaf {s : PStructure} {v u w : ℕ}
    (hdeg : s.degOf v ≤ 1) (hu : u ≠ v) (hw : w ≠ v) (h : Reaches s u w) :
    Reaches (s.removeNode v) u w := by
  obtain ⟨n, hc⟩ := rtg_iff_edgeChain.mp h
  exact edgeChain_delete_leaf
    (fun a b hab => neighbors_symm.mp hab) hdeg
    (fun a b ha hb hab => by
      rw [neighbors_removeNode ha]; exact Finset.mem_erase.mpr ⟨hb, hab⟩)
    n u w hc hu hw

/-! ### The connectivity check and the protected-set invariant -/

lemma connOk_filter_eq {s : PStructure} {prot : List ℕ}
    (hpres : protAllPresent prot s) :
    prot.filter (fun p => decide (p ∈ s.idsFinset)) = prot :=
  List.filter_eq_self.mpr (fun p hp => decide_eq_true (hpres p hp))

lemma reaches_symm {s : PStructure} {p q : ℕ} (h : Reaches s p q) : Reaches s q p :=
  rtg_symm (fun _ _ hab => neighbors_symm.mp hab) h

lemma mem_reach_iff_reaches {s : PStructure} {p q : ℕ} (hp : p ∈ s.idsFinset) :
    q ∈ reachSet s.neighbors s.idsFinset.card {p} ↔ Reaches s p q := by
  rw [mem_reachSet_iff (U := s.idsFinset) (by simpa using hp)
    (fun x => neighbors_subset_ids x) q]
  constructor
  · rintro ⟨a, ha, hr⟩
    rw [Finset.mem_singleton] at ha
    exact ha ▸ hr
  · intro hr
    exact ⟨p, Finset.mem_singleton_self p, hr⟩

lemma connOk_iff_protMutual {s : PStructure} {prot : List ℕ}
    (hpres : protAllPresent prot s) :
    isConnectivityOk s prot = true ↔ protMutual prot s := by
  unfold isConnectivityOk
  rw [connOk_filter_eq hpres]
  match hm : prot with
  | [] => simp [protMutual]
  | p :: rest =>
    have hp : p ∈ s.idsFinset := hpres p (List.mem_cons_self p rest)
    rw [List.all_eq_true]
    constructor
    · intro hall a ha b hb
      have hra : Reaches s p a := by
        have := hall a ha
        rw [decide_eq_true_eq, mem_reach_iff_reaches hp] at this
        exact this
      have hrb : Reaches s p b := by
        have := hall b hb
        rw [decide_eq_true_eq, mem_reach_iff_reaches hp] at this
        exact this
      exact Relation.ReflTransGen.trans (reaches_symm hra) hrb
    · intro hmut q hq
      rw [decide_eq_true_eq, mem_reach_iff_reaches hp]
      exact hmut p (List.mem_cons_self p rest) q hq

lemma protOK_removeNode_leaf {s : PStructure} {prot : List ℕ} {v : ℕ}
    (h : protOK prot s) (hv : ¬ v ∈ prot) (hdeg : s.degOf v ≤ 1) :
    protOK prot (s.removeNode v) := by
  obtain ⟨hpres, hconn⟩ := h
  have hpres2 : protAllPresent prot (s.removeNode v) := by
    intro p hp
    rw [idsFinset_removeNode]
    exact Finset.mem_erase.mpr ⟨fun he => hv (he ▸ hp), hpres p hp⟩
  refine ⟨hpres2, ?_⟩
  rw [connOk_iff_protMutual hpres2]
  rw [connOk_iff_protMutual hpres] at hconn
  intro p hp q hq
  exact reaches_removeNode_leaf hdeg (fun he => hv (he ▸ hp)) (fun he => hv (he ▸ hq))
    (hconn p hp q hq)

/-! ### Pruning preserves the protected-set invariant -/

lemma pruneFold_inv {prot : List ℕ} {dmax : ℕ} (hd : dmax ≤ 1) (s0 : PStructure) :
    ∀ (l : List ℕ) (s : PStructure),
      protOK prot s →
      (∀ x, s.neighbors x ⊆ s0.neighbors x) →
      (∀ p ∈ s.nodes, p ∈ s0.nodes) →
      (∀ nid ∈ l, s0.degOf nid ≤ dmax) →
      protOK prot
          (l.foldl (fun acc nid =>
            if nid ∈ acc.idsFinset ∧ ¬ nid ∈ prot then acc.removeNode nid else acc) s) ∧
        (∀ x, (l.foldl (fun acc nid =>
            if nid ∈ acc.idsFinset ∧ ¬ nid ∈ prot then acc.removeNode nid else acc) s).neighbors x
          ⊆ s0.neighbors x) ∧
        (∀ p ∈ (l.foldl (fun acc nid =>
            if nid ∈ acc.idsFinset ∧ ¬ nid ∈ prot then acc.removeNode nid else acc) s).nodes,
          p ∈ s0.nodes) ∧
        ((∀ p ∈ s0.nodes, 0 ≤ p.2.mass) →
          (l.foldl (fun acc nid =>
            if nid ∈ acc.idsFinset ∧ ¬ nid ∈ prot then acc.removeNode nid else acc) s).totalMass
            ≤ s.totalMass) := by
  intro l
  induction l with
  | nil => intro s hs hnb hsub _; exact ⟨hs, hnb, hsub, fun _ => le_refl _⟩
  | cons nid rest ih =>
    intro s hs hnb hsub hdegs
    simp only [List.foldl_cons]
    by_cases hc : nid ∈ s.idsFinset ∧ ¬ nid ∈ prot
    · rw [if_pos hc]
      have hdegnid : s.degOf nid ≤ dmax :=
        le_trans (Finset.card_le_card (hnb nid)) (hdegs nid (List.mem_cons_self nid rest))
      have hOK2 : protOK prot (s.removeNode nid) :=
        protOK_removeNode_leaf hs hc.2 (le_trans hdegnid hd)
      have hnb2 : ∀ x, (s.removeNode nid).neighbors x ⊆ s0.neighbors x :=
        fun x => le_trans (neighbors_removeNode_subset s nid x) (hnb x)
      have hsub2 : ∀ p ∈ (s.removeNode nid).nodes, p ∈ s0.nodes :=
        fun p hp => hsub p (nodes_removeNode_subset s nid p hp)
      obtain ⟨a, b, c, d⟩ := ih (s.removeNode nid) hOK2 hnb2 hsub2
        (fun m hm => hdegs m (List.mem_cons_of_mem nid hm))
      refine ⟨a, b, c, fun hmass => le_trans (d hmass) ?_⟩
      exact totalMass_removeNode_le nid (fun p hp => hmass p (hsub p hp))
    · rw [if_neg hc]
      exact ih s hs hnb hsub (fun m hm => hdegs m (List.mem_cons_of_mem nid hm))

lemma pruneDeg_inv {prot : List ℕ} {dmax : ℕ} (hd : dmax ≤ 1) :
    ∀ (r : ℕ) (s : PStructure), protOK prot s →
      protOK prot (pruneDeg prot dmax r s) ∧
        (∀ p ∈ (pruneDeg prot dmax r s).nodes, p ∈ s.nodes) ∧
        ((∀ p ∈ s.nodes, 0 ≤ p.2.mass) →
          (pruneDeg prot dmax r s).totalMass ≤ s.totalMass) := by
  intro r
  induction r with
  | zero => intro s hs; exact ⟨hs, fun p hp => hp, fun _ => le_refl _⟩
  | succ m ih =>
    intro s hs
    unfold pruneDeg
    by_cases he : (s.idList.filter (fun nid => ¬ nid ∈ prot ∧ s.degOf nid ≤ dmax)).isEmpty
    · rw [if_pos he]
      exact ⟨hs, fun p hp => hp, fun _ => le_refl _⟩
    · rw [if_neg he]
      have hdegs : ∀ nid ∈ s.idList.filter (fun nid => ¬ nid ∈ prot ∧ s.degOf nid ≤ dmax),
          s.degOf nid ≤ dmax := by
        intro nid hnid
        have := (List.mem_filter.mp hnid).2
        rw [decide_eq_true_eq] at this
        exact this.2
      obtain ⟨a, b, c, d⟩ := pruneFold_inv hd s _ s hs
        (fun _ => le_refl _) (fun p hp => hp) hdegs
      obtain ⟨a2, b2, c2⟩ := ih _ a
      refine ⟨a2, fun p hp => c p (b2 p hp), fun hmass => ?_⟩
      have hmassF : ∀ p ∈ (_ : PStructure).nodes, 0 ≤ p.2.mass := fun p hp => hmass p (c p hp)
      exact le_trans (c2 hmassF) (d hmass)

/-! ### Batch removal, trial, and stagnation-scan invariants -/

lemma removeBatch_spec {prot : List ℕ} {attemptK : ℕ} {snap base : PStructure} :
    ∀ (pool : List ℕ) (cur : PStructure) (removed : ℕ),
      (removed = 0 → cur = snap) →
      protAllPresent prot cur →
      (0 < removed → isConnectivityOk cur prot = true) →
      (∀ p ∈ cur.nodes, p ∈ base.nodes) →
      ((removeBatch prot attemptK snap pool cur removed).2 = 0 →
        (removeBatch prot attemptK snap pool cur removed).1 = snap) ∧
      (0 < (removeBatch prot attemptK snap pool cur removed).2 →
        protOK prot (removeBatch prot attemptK snap pool cur removed).1 ∧
        (∀ p ∈ (removeBatch prot attemptK snap pool cur removed).1.nodes, p ∈ base.nodes) ∧
        ((∀ p ∈ base.nodes, 0 ≤ p.2.mass) →
          (removeBatch prot attemptK snap pool cur removed).1.totalMass ≤ cur.totalMass)) := by
  intro pool
  induction pool with
  | nil =>
    intro cur removed h0 hpres hconn hsub
    exact ⟨fun h => h0 h, fun h => ⟨⟨hpres, hconn h⟩, hsub, fun _ => le_refl _⟩⟩
  | cons nid rest ih =>
    intro cur removed h0 hpres hconn hsub
    simp only [removeBatch]
    split_ifs with hk hskip hcok
    · exact ⟨fun h => h0 h, fun h => ⟨⟨hpres, hconn h⟩, hsub, fun _ => le_refl _⟩⟩
    · exact ih cur removed h0 hpres hconn hsub
    · push_neg at hskip
      obtain ⟨hin, hnprot⟩ := hskip
      have hpres2 : protAllPresent prot (cur.removeNode nid) := by
        intro p hp
        rw [idsFinset_removeNode]
        exact Finset.mem_erase.mpr ⟨fun he => hnprot (he ▸ hp), hpres p hp⟩
      have hsub2 : ∀ p ∈ (cur.removeNode nid).nodes, p ∈ base.nodes :=
        fun p hp => hsub p (nodes_removeNode_subset cur nid p hp)
      obtain ⟨a, b⟩ := ih (cur.removeNode nid) (removed + 1)
        (by omega) hpres2 (fun _ => hcok) hsub2
      refine ⟨a, fun h => ?_⟩
      obtain ⟨x, y, z⟩ := b h
      refine ⟨x, y, fun hmass => le_trans (z hmass) ?_⟩
      exact totalMass_removeNode_le nid (fun p hp => hmass p (hsub p hp))
    · exact ⟨fun _ => rfl, fun h => absurd h (by omega)⟩

lemma tryBatch_spec {P : OptParams} {attemptK : ℕ} {current : PStructure} {pool : List ℕ}
    (hOK : protOK P.prot current) :
    ∀ {r}, tryBatch P attemptK current pool = some r →
      protOK P.prot r.1 ∧ (∀ p ∈ r.1.nodes, p ∈ current.nodes) ∧
      ((∀ p ∈ current.nodes, 0 ≤ p.2.mass) → r.1.totalMass ≤ current.totalMass) := by
  intro r hr
  by_cases hz : (removeBatch P.prot attemptK current pool current 0).2 = 0
  · have hr2 : (none : Option (PStructure × List (ℕ × (ℚ × ℚ)))) = some r := by
      rw [← hr]; unfold tryBatch; rw [if_pos hz]
    exact absurd hr2 (by simp)
  · have hr2 :
        (match isSolvable P.oracle
            (pruneDeg P.prot 0 20 (removeBatch P.prot attemptK current pool current 0).1) with
          | some d =>
            some (pruneDeg P.prot 0 20 (removeBatch P.prot attemptK current pool current 0).1, d)
          | none => none) = some r := by
      rw [← hr]; unfold tryBatch; rw [if_neg hz]
    obtain ⟨hA, hB⟩ := @removeBatch_spec P.prot attemptK current current pool current 0
      (fun _ => rfl) hOK.1 (fun h => absurd h (by omega)) (fun p hp => hp)
    obtain ⟨x, y, z⟩ := hB (Nat.pos_of_ne_zero hz)
    obtain ⟨a, b, c⟩ :=
      @pruneDeg_inv P.prot 0 (by omega) 20
        (removeBatch P.prot attemptK current pool current 0).1 x
    cases hsol : isSolvable P.oracle
        (pruneDeg P.prot 0 20 (removeBatch P.prot attemptK current pool current 0).1) with
    | none => rw [hsol] at hr2; exact absurd hr2 (by simp)
    | some d =>
      rw [hsol] at hr2
      obtain rfl := Option.some.inj hr2
      refine ⟨a, fun p hp => y p (b p hp), fun hmass => ?_⟩
      have hm2 : ∀ p ∈ (removeBatch P.prot attemptK current pool current 0).1.nodes,
          0 ≤ p.2.mass := fun p hp => hmass p (y p hp)
      exact le_trans (c hm2) (z hmass)

lemma attemptLoop_spec {P : OptParams} {current : PStructure} {pool : List ℕ}
    (hOK : protOK P.prot current) :
    ∀ (fuel attemptK : ℕ) {r}, attemptLoop P fuel attemptK current pool = some r →
      protOK P.prot r.1 ∧ (∀ p ∈ r.1.nodes, p ∈ current.nodes) ∧
      ((∀ p ∈ current.nodes, 0 ≤ p.2.mass) → r.1.totalMass ≤ current.totalMass) := by
  intro fuel
  induction fuel with
  | zero => intro attemptK r hr; exact absurd hr (by simp [attemptLoop])
  | succ f ih =>
    intro attemptK r hr
    unfold attemptLoop at hr
    cases htb : tryBatch P attemptK current pool with
    | some r2 => rw [htb] at hr; obtain rfl := Option.some.inj hr; exact tryBatch_spec hOK htb
    | none => rw [htb] at hr; exact ih _ hr

lemma scanSingles_spec {P : OptParams} : ∀ (cands : List ℕ) (current : PStructure),
    protOK P.prot current →
    ∀ {r}, scanSingles P cands current = some r →
      protOK P.prot r.1 ∧ (∀ p ∈ r.1.nodes, p ∈ current.nodes) ∧
      ((∀ p ∈ current.nodes, 0 ≤ p.2.mass) → r.1.totalMass ≤ current.totalMass) := by
  intro cands
  induction cands with
  | nil => intro current _ r hr; exact absurd hr (by simp [scanSingles])
  | cons nid rest ih =>
    intro current hOK r hr
    have hstep : scanSingles P (nid :: rest) current =
        if nid ∈ P.prot ∨ ¬ nid ∈ current.idsFinset then scanSingles P rest current
        else if ¬ isConnectivityOk (current.removeNode nid) P.prot = true then
          scanSingles P rest current
        else
          match isSolvable P.oracle (pruneDeg P.prot 0 30 (current.removeNode nid)) with
          | some d => some (pruneDeg P.prot 0 30 (current.removeNode nid), d)
          | none => scanSingles P rest current := rfl
    rw [hstep] at hr
    by_cases hskip : nid ∈ P.prot ∨ ¬ nid ∈ current.idsFinset
    · rw [if_pos hskip] at hr
      exact ih current hOK hr
    · rw [if_neg hskip] at hr
      by_cases hconn : isConnectivityOk (current.removeNode nid) P.prot = true
      · rw [if_neg (by simpa using hconn)] at hr
        push_neg at hskip
        have hpres2 : protAllPresent P.prot (current.removeNode nid) := by
          intro p hp
          rw [idsFinset_removeNode]
          exact Finset.mem_erase.mpr ⟨fun he => hskip.1 (he ▸ hp), hOK.1 p hp⟩
        have hOK2 : protOK P.prot (current.removeNode nid) := ⟨hpres2, hconn⟩
        obtain ⟨a, b, c⟩ :=
          @pruneDeg_inv P.prot 0 (by omega) 30
            (current.removeNode nid) hOK2
        cases hsol : isSolvable P.oracle (pruneDeg P.prot 0 30 (current.removeNode nid)) with
        | none => rw [hsol] at hr; exact ih current hOK hr
        | some d =>
          rw [hsol] at hr
          obtain rfl := Option.some.inj hr
          refine ⟨a, fun p hp => nodes_removeNode_subset current nid p (b p hp),
            fun hmass => ?_⟩
          have hm2 : ∀ p ∈ (current.removeNode nid).nodes, 0 ≤ p.2.mass :=
            fun p hp => hmass p (nodes_removeNode_subset current nid p hp)
          exact le_trans (c hm2) (totalMass_removeNode_le nid hmass)
      · rw [if_pos (by simpa using hconn)] at hr
        exact ih current hOK hr


lemma loopIter_inl_spec {P : OptParams} {st st2 : LoopSt}
    (hOK : protOK P.prot st.current) (h : loopIter P st = Sum.inl st2) :
    protOK P.prot st2.current ∧ st2.steps = st.steps + 1 ∧
    (∀ p ∈ st2.current.nodes, p ∈ st.current.nodes) ∧
    ((∀ p ∈ st.current.nodes, 0 ≤ p.2.mass) →
      st2.current.totalMass ≤ st.current.totalMass) := by
  unfold loopIter at h
  by_cases he : (removableOf P st).isEmpty
  · rw [if_pos he] at h; exact absurd h (by simp)
  · rw [if_neg he] at h
    cases hat : attemptLoop P 9
        (computeK P.startMass P.target st.current.totalMass st.current.nodes.length).toNat
        st.current (poolOf P st) with
    | some r =>
      rw [hat] at h
      obtain rfl := Sum.inl.inj h
      obtain ⟨a, b, c⟩ := attemptLoop_spec hOK _ _ hat
      exact ⟨a, rfl, b, c⟩
    | none =>
      rw [hat] at h
      cases hsc : scanSingles P (stagnationCandidates P st).1 st.current with
      | some r =>
        rw [hsc] at h
        obtain rfl := Sum.inl.inj h
        obtain ⟨a, b, c⟩ := scanSingles_spec _ _ hOK hsc
        exact ⟨a, rfl, b, c⟩
      | none => rw [hsc] at h; exact absurd h (by simp)

lemma loopIter_inr_spec {P : OptParams} {st : LoopSt}
    {res : Option PStructure × ℕ × OptStatus} (h : loopIter P st = Sum.inr res) :
    res.1 = some st.current ∧ res.2.1 = st.steps := by
  unfold loopIter at h
  by_cases he : (removableOf P st).isEmpty
  · rw [if_pos he] at h
    obtain rfl := Sum.inr.inj h
    exact ⟨rfl, rfl⟩
  · rw [if_neg he] at h
    cases hat : attemptLoop P 9
        (computeK P.startMass P.target st.current.totalMass st.current.nodes.length).toNat
        st.current (poolOf P st) with
    | some r => rw [hat] at h; exact absurd h (by simp)
    | none =>
      rw [hat] at h
      cases hsc : scanSingles P (stagnationCandidates P st).1 st.current with
      | some r => rw [hsc] at h; exact absurd h (by simp)
      | none =>
        rw [hsc] at h
        obtain rfl := Sum.inr.inj h
        exact ⟨rfl, rfl⟩

lemma finishRun_inv {P : OptParams} {st : LoopSt} (hOK : protOK P.prot st.current) :
    ∀ {r}, (finishRun P st).1 = some r → protOK P.prot r := by
  intro r hr
  unfold finishRun at hr
  split_ifs at hr
  · obtain rfl := Option.some.inj hr
    exact (@pruneDeg_inv P.prot 1 (by omega) 120 st.current hOK).1
  · obtain rfl := Option.some.inj hr
    exact hOK

lemma runLoop_inv {P : OptParams} {maxSteps : ℕ} :
    ∀ (fuel : ℕ) (st : LoopSt) (trace : List PStructure),
      protOK P.prot st.current →
      (∀ c ∈ trace, protOK P.prot c) →
      (∀ c ∈ (runLoop P maxSteps fuel st trace).2, protOK P.prot c) ∧
      (∀ r, (runLoop P maxSteps fuel st trace).1.1 = some r → protOK P.prot r) := by
  intro fuel
  induction fuel with
  | zero =>
    intro st trace hOK htr
    unfold runLoop
    exact ⟨htr, fun r hr => finishRun_inv hOK hr⟩
  | succ f ih =>
    intro st trace hOK htr
    unfold runLoop
    by_cases hc : P.target < st.current.totalMass ∧ st.steps < maxSteps
    · rw [if_pos hc]
      cases hli : loopIter P st with
      | inr res =>
        refine ⟨htr, fun r hr => ?_⟩
        obtain ⟨h1, _⟩ := loopIter_inr_spec hli
        rw [h1] at hr
        obtain rfl := Option.some.inj hr
        exact hOK
      | inl st2 =>
        obtain ⟨a, _, _, _⟩ := loopIter_inl_spec hOK hli
        refine ih st2 (trace ++ [st2.current]) a ?_
        intro c hc2
        rcases List.mem_append.mp hc2 with h | h
        · exact htr c h
        · rw [List.mem_singleton] at h
          exact h ▸ a
    · rw [if_neg hc]
      exact ⟨htr, fun r hr => finishRun_inv hOK hr⟩

lemma optimizeFull_eq (oracle : Oracle) (rngF : ℕ → List ℕ → ℕ → List ℕ × ℕ)
    (struct : PStructure) (prot : List ℕ) (targetMass : ℚ)
    (maxSteps topN patience : ℕ) :
    optimizeFull oracle rngF struct prot targetMass maxSteps topN patience =
      if struct.totalMass ≤ targetMass then ((some struct, 0, OptStatus.alreadyBelow), [])
      else if ¬ isConnectivityOk struct prot then
        ((none, 0, OptStatus.initialDisconnected), [])
      else
        match isSolvable oracle struct with
        | none => ((none, 0, OptStatus.initialUnsolvable), [])
        | some disp =>
          runLoop ⟨oracle, rngF, coordsOf struct, prot, targetMass, struct.totalMass,
              topN, patience⟩ maxSteps (maxSteps + 1) ⟨struct, disp, 0, 0, 0⟩ [struct] := rfl

/-- C1 (corrected): provided every protected id is a node of the input
structure and the input passes the protected-connectivity check, then every
committed state of `optimize_until_target` — the initial accepted state, the
state after each accepted iteration, and any returned final structure —
contains every protected id and keeps all protected ids mutually reachable
via springs; moreover no pruning pass (`_prune_degree0`, dmax = 0, or
`_prune_degree01_final`, dmax = 1) ever deletes a protected node or breaks
protected-set connectivity. -/
theorem C1_committed_protected_connectivity (oracle : Oracle)
    (rngF : ℕ → List ℕ → ℕ → List ℕ × ℕ) (struct : PStructure) (prot : List ℕ)
    (targetMass : ℚ) (maxSteps topN patience : ℕ)
    (hpres : protAllPresent prot struct)
    (hconn : isConnectivityOk struct prot = true) :
    (∀ c ∈ (optimizeFull oracle rngF struct prot targetMass maxSteps topN patience).2,
      protAllPresent prot c ∧ protMutual prot c) ∧
    (∀ r n m,
      (optimizeFull oracle rngF struct prot targetMass maxSteps topN patience).1 =
        (some r, n, m) → protAllPresent prot r ∧ protMutual prot r) ∧
    (∀ dmax ≤ 1, ∀ rounds s, protAllPresent prot s → isConnectivityOk s prot = true →
      protAllPresent prot (pruneDeg prot dmax rounds s) ∧
      isConnectivityOk (pruneDeg prot dmax rounds s) prot = true) := by
  have hOK0 : protOK prot struct := ⟨hpres, hconn⟩
  have hsplit : ∀ s : PStructure, protOK prot s → protAllPresent prot s ∧ protMutual prot s :=
    fun s h => ⟨h.1, (connOk_iff_protMutual h.1).mp h.2⟩
  refine ⟨?_, ?_, ?_⟩
  · rw [optimizeFull_eq]
    by_cases hm : struct.totalMass ≤ targetMass
    · rw [if_pos hm]
      intro c hc
      exact absurd hc (by simp)
    · rw [if_neg hm, if_neg (by simp [hconn])]
      cases hsol : isSolvable oracle struct with
      | none => intro c hc; exact absurd hc (by simp)
      | some disp =>
        obtain ⟨ht, _⟩ := @runLoop_inv
          ⟨oracle, rngF, coordsOf struct, prot, targetMass, struct.totalMass,
            topN, patience⟩ maxSteps
          (maxSteps + 1) ⟨struct, disp, 0, 0, 0⟩ [struct] hOK0
          (by intro c hc; rw [List.mem_singleton] at hc; rw [hc]; exact hOK0)
        intro c hc
        exact hsplit c (ht c hc)
  · rw [optimizeFull_eq]
    by_cases hm : struct.totalMass ≤ targetMass
    · rw [if_pos hm]
      intro r n m hr
      have h1 := congrArg Prod.fst hr
      obtain rfl := Option.some.inj h1
      exact hsplit struct hOK0
    · rw [if_neg hm, if_neg (by simp [hconn])]
      cases hsol : isSolvable oracle struct with
      | none =>
        intro r n m hr
        have h1 := congrArg Prod.fst hr
        exact absurd h1 (by simp)
      | some disp =>
        obtain ⟨_, hres⟩ := @runLoop_inv
          ⟨oracle, rngF, coordsOf struct, prot, targetMass, struct.totalMass,
            topN, patience⟩ maxSteps
          (maxSteps + 1) ⟨struct, disp, 0, 0, 0⟩ [struct] hOK0
          (by intro c hc; rw [List.mem_singleton] at hc; rw [hc]; exact hOK0)
        intro r n m hr
        exact hsplit r (hres r (congrArg Prod.fst hr))
  · intro dmax hd rounds s h1 h2
    exact (@pruneDeg_inv prot dmax hd rounds s ⟨h1, h2⟩).1

/-- C1 counterexample: with `protected = {1, 99}` where node 99 does not
exist in the structure, `is_connectivity_ok` only checks the protected ids
that are present, so the run proceeds and returns a committed structure in
which the protected id 99 is absent — the claim's "every protected node id
is present" fails as stated. -/
theorem C1_counterexample :
    99 ∈ ([1, 99] : List ℕ) ∧
    optimize oracleErr rngNone structOneNode [1, 99] 0 1 400 80 =
      (some structOneNode, 0, OptStatus.noRemovable) ∧
    ¬ 99 ∈ structOneNode.idsFinset :=
  ⟨by decide, by with_unfolding_all decide, by decide⟩

/-- C1 witness: the amended invariant instantiated on a concrete two-node
run with protected node 1. -/
theorem C1_witness :
    (∀ c ∈ (optimizeFull oracleErr rngNone structTwoConn [1] 0 3 400 80).2,
      protAllPresent [1] c ∧ protMutual [1] c) ∧
    (∀ r n m,
      (optimizeFull oracleErr rngNone structTwoConn [1] 0 3 400 80).1 =
        (some r, n, m) → protAllPresent [1] r ∧ protMutual [1] r) ∧
    (∀ dmax ≤ 1, ∀ rounds s, protAllPresent [1] s → isConnectivityOk s [1] = true →
      protAllPresent [1] (pruneDeg [1] dmax rounds s) ∧
      isConnectivityOk (pruneDeg [1] dmax rounds s) [1] = true) :=
  C1_committed_protected_connectivity oracleErr rngNone structTwoConn [1] 0 3 400 80
    (by unfold protAllPresent; decide) (by with_unfolding_all decide)

/-! ### Monotone evolution of accepted iterations (no connectivity needed) -/

lemma pruneFold_sub (prot : List ℕ) :
    ∀ (l : List ℕ) (s : PStructure),
      (∀ p ∈ (l.foldl (fun acc nid =>
          if nid ∈ acc.idsFinset ∧ ¬ nid ∈ prot then acc.removeNode nid else acc) s).nodes,
        p ∈ s.nodes) ∧
      ((∀ p ∈ s.nodes, 0 ≤ p.2.mass) →
        (l.foldl (fun acc nid =>
          if nid ∈ acc.idsFinset ∧ ¬ nid ∈ prot then acc.removeNode nid else acc) s).totalMass
          ≤ s.totalMass) := by
  intro l
  induction l with
  | nil => intro s; exact ⟨fun p hp => hp, fun _ => le_refl _⟩
  | cons nid rest ih =>
    intro s
    simp only [List.foldl_cons]
    by_cases hc : nid ∈ s.idsFinset ∧ ¬ nid ∈ prot
    · rw [if_pos hc]
      obtain ⟨a, b⟩ := ih (s.removeNode nid)
      refine ⟨fun p hp => nodes_removeNode_subset s nid p (a p hp), fun hmass => ?_⟩
      have hm2 : ∀ p ∈ (s.removeNode nid).nodes, 0 ≤ p.2.mass :=
        fun p hp => hmass p (nodes_removeNode_subset s nid p hp)
      exact le_trans (b hm2) (totalMass_removeNode_le nid hmass)
    · rw [if_neg hc]
      exact ih s

lemma pruneDeg_sub (prot : List ℕ) (dmax : ℕ) :
    ∀ (r : ℕ) (s : PStructure),
      (∀ p ∈ (pruneDeg prot dmax r s).nodes, p ∈ s.nodes) ∧
      ((∀ p ∈ s.nodes, 0 ≤ p.2.mass) →
        (pruneDeg prot dmax r s).totalMass ≤ s.totalMass) := by
  intro r
  induction r with
  | zero => intro s; exact ⟨fun p hp => hp, fun _ => le_refl _⟩
  | succ m ih =>
    intro s
    unfold pruneDeg
    by_cases he : (s.idList.filter (fun nid => ¬ nid ∈ prot ∧ s.degOf nid ≤ dmax)).isEmpty
    · rw [if_pos he]
      exact ⟨fun p hp => hp, fun _ => le_refl _⟩
    · rw [if_neg he]
      obtain ⟨a, b⟩ := pruneFold_sub prot
        (s.idList.filter (fun nid => ¬ nid ∈ prot ∧ s.degOf nid ≤ dmax)) s
      obtain ⟨a2, b2⟩ := ih
        ((s.idList.filter (fun nid => ¬ nid ∈ prot ∧ s.degOf nid ≤ dmax)).foldl
          (fun acc nid =>
            if nid ∈ acc.idsFinset ∧ ¬ nid ∈ prot then acc.removeNode nid else acc) s)
      refine ⟨fun p hp => a p (a2 p hp), fun hmass => ?_⟩
      exact le_trans (b2 (fun p hp => hmass p (a p hp))) (b hmass)

lemma removeBatch_sub {prot : List ℕ} {attemptK : ℕ} {snap base : PStructure} :
    ∀ (pool : List ℕ) (cur : PStructure) (removed : ℕ),
      (∀ p ∈ cur.nodes, p ∈ base.nodes) →
      (0 < (removeBatch prot attemptK snap pool cur removed).2 →
        (∀ p ∈ (removeBatch prot attemptK snap pool cur removed).1.nodes, p ∈ base.nodes) ∧
        ((∀ p ∈ base.nodes, 0 ≤ p.2.mass) →
          (removeBatch prot attemptK snap pool cur removed).1.totalMass ≤ cur.totalMass)) := by
  intro pool
  induction pool with
  | nil =>
    intro cur removed hsub _
    exact ⟨hsub, fun _ => le_refl _⟩
  | cons nid rest ih =>
    intro cur removed hsub
    simp only [removeBatch]
    split_ifs with hk hskip hcok
    · exact fun _ => ⟨hsub, fun _ => le_refl _⟩
    · exact ih cur removed hsub
    · intro hpos
      have hsub2 : ∀ p ∈ (cur.removeNode nid).nodes, p ∈ base.nodes :=
        fun p hp => hsub p (nodes_removeNode_subset cur nid p hp)
      obtain ⟨a, b⟩ := ih (cur.removeNode nid) (removed + 1) hsub2 hpos
      refine ⟨a, fun hmass => le_trans (b hmass) ?_⟩
      exact totalMass_removeNode_le nid (fun p hp => hmass p (hsub p hp))
    · intro hpos
      exact absurd hpos (by omega)

lemma tryBatch_sub {P : OptParams} {attemptK : ℕ} {current : PStructure} {pool : List ℕ} :
    ∀ {r}, tryBatch P attemptK current pool = some r →
      (∀ p ∈ r.1.nodes, p ∈ current.nodes) ∧
      ((∀ p ∈ current.nodes, 0 ≤ p.2.mass) → r.1.totalMass ≤ current.totalMass) := by
  intro r hr
  by_cases hz : (removeBatch P.prot attemptK current pool current 0).2 = 0
  · have hr2 : (none : Option (PStructure × List (ℕ × (ℚ × ℚ)))) = some r := by
      rw [← hr]; unfold tryBatch; rw [if_pos hz]
    exact absurd hr2 (by simp)
  · have hr2 :
        (match isSolvable P.oracle
            (pruneDeg P.prot 0 20 (removeBatch P.prot attemptK current pool current 0).1) with
          | some d =>
            some (pruneDeg P.prot 0 20 (removeBatch P.prot attemptK current pool current 0).1, d)
          | none => none) = some r := by
      rw [← hr]; unfold tryBatch; rw [if_neg hz]
    obtain ⟨y, z⟩ := @removeBatch_sub P.prot attemptK current current pool current 0
      (fun p hp => hp) (Nat.pos_of_ne_zero hz)
    obtain ⟨b, c⟩ := pruneDeg_sub P.prot 0 20
      (removeBatch P.prot attemptK current pool current 0).1
    cases hsol : isSolvable P.oracle
        (pruneDeg P.prot 0 20 (removeBatch P.prot attemptK current pool current 0).1) with
    | none => rw [hsol] at hr2; exact absurd hr2 (by simp)
    | some d =>
      rw [hsol] at hr2
      obtain rfl := Option.some.inj hr2
      refine ⟨fun p hp => y p (b p hp), fun hmass => ?_⟩
      exact le_trans (c (fun p hp => hmass p (y p hp))) (z hmass)

lemma attemptLoop_sub {P : OptParams} {current : PStructure} {pool : List ℕ} :
    ∀ (fuel attemptK : ℕ) {r}, attemptLoop P fuel attemptK current pool = some r →
      (∀ p ∈ r.1.nodes, p ∈ current.nodes) ∧
      ((∀ p ∈ current.nodes, 0 ≤ p.2.mass) → r.1.totalMass ≤ current.totalMass) := by
  intro fuel
  induction fuel with
  | zero => intro attemptK r hr; exact absurd hr (by simp [attemptLoop])
  | succ f ih =>
    intro attemptK r hr
    unfold attemptLoop at hr
    cases htb : tryBatch P attemptK current pool with
    | some r2 => rw [htb] at hr; obtain rfl := Option.some.inj hr; exact tryBatch_sub htb
    | none => rw [htb] at hr; exact ih _ hr

lemma scanSingles_sub {P : OptParams} : ∀ (cands : List ℕ) (current : PStructure),
    ∀ {r}, scanSingles P cands current = some r →
      (∀ p ∈ r.1.nodes, p ∈ current.nodes) ∧
      ((∀ p ∈ current.nodes, 0 ≤ p.2.mass) → r.1.totalMass ≤ current.totalMass) := by
  intro cands
  induction cands with
  | nil => intro current r hr; exact absurd hr (by simp [scanSingles])
  | cons nid rest ih =>
    intro current r hr
    have hstep : scanSingles P (nid :: rest) current =
        if nid ∈ P.prot ∨ ¬ nid ∈ current.idsFinset then scanSingles P rest current
        else if ¬ isConnectivityOk (current.removeNode nid) P.prot = true then
          scanSingles P rest current
        else
          match isSolvable P.oracle (pruneDeg P.prot 0 30 (current.removeNode nid)) with
          | some d => some (pruneDeg P.prot 0 30 (current.removeNode nid), d)
          | none => scanSingles P rest current := rfl
    rw [hstep] at hr
    split_ifs at hr with hskip hconn
    · exact ih current hr
    · obtain ⟨b, c⟩ := pruneDeg_sub P.prot 0 30 (current.removeNode nid)
      cases hsol : isSolvable P.oracle (pruneDeg P.prot 0 30 (current.removeNode nid)) with
      | none => rw [hsol] at hr; exact ih current hr
      | some d =>
        rw [hsol] at hr
        obtain rfl := Option.some.inj hr
        refine ⟨fun p hp => nodes_removeNode_subset current nid p (b p hp), fun hmass => ?_⟩
        have hm2 : ∀ p ∈ (current.removeNode nid).nodes, 0 ≤ p.2.mass :=
          fun p hp => hmass p (nodes_removeNode_subset current nid p hp)
        exact le_trans (c hm2) (totalMass_removeNode_le nid hmass)
    · exact ih current hr

/-- C4 (corrected): every accepted iteration of `optimize_until_target`
only deletes nodes — each surviving entry (id and attributes unchanged) was
an entry of the previous committed state, so nothing is added or renumbered —
and it increments the step counter by exactly one; the total mass is
non-increasing provided every node mass is nonnegative (with a negative-mass
node an accepted iteration can increase the total mass, see the
counterexample). -/
theorem C4_accepted_iteration_monotone (P : OptParams) (st st2 : LoopSt)
    (h : loopIter P st = Sum.inl st2) :
    (∀ p ∈ st2.current.nodes, p ∈ st.current.nodes) ∧
    st2.steps = st.steps + 1 ∧
    ((∀ p ∈ st.current.nodes, 0 ≤ p.2.mass) →
      st2.current.totalMass ≤ st.current.totalMass) := by
  unfold loopIter at h
  by_cases he : (removableOf P st).isEmpty
  · rw [if_pos he] at h; exact absurd h (by simp)
  · rw [if_neg he] at h
    cases hat : attemptLoop P 9
        (computeK P.startMass P.target st.current.totalMass st.current.nodes.length).toNat
        st.current (poolOf P st) with
    | some r =>
      rw [hat] at h
      obtain rfl := Sum.inl.inj h
      obtain ⟨b, c⟩ := attemptLoop_sub _ _ hat
      exact ⟨b, rfl, c⟩
    | none =>
      rw [hat] at h
      cases hsc : scanSingles P (stagnationCandidates P st).1 st.current with
      | some r =>
        rw [hsc] at h
        obtain rfl := Sum.inl.inj h
        obtain ⟨b, c⟩ := scanSingles_sub _ _ hsc
        exact ⟨b, rfl, c⟩
      | none => rw [hsc] at h; exact absurd h (by simp)

/-- C4 counterexample: on a structure whose only removable node has mass −5,
the run's first accepted iteration removes it and the total mass RISES from
−4 to 1 between consecutive committed states, refuting unconditional mass
monotonicity. -/
theorem C4_counterexample :
    (optimizeFull oracleErr rngNone structNegMass [1] (-10) 5 400 80).2 =
      [structNegMass, structOneNode] ∧
    loopIter negMassParams negMassSt = Sum.inl ⟨structOneNode, [(1, (0, 0))], 1, 0, 0⟩ ∧
    structNegMass.totalMass = -4 ∧ structOneNode.totalMass = 1 ∧
    ¬ structOneNode.totalMass ≤ structNegMass.totalMass :=
  ⟨by with_unfolding_all decide, by with_unfolding_all decide,
   by with_unfolding_all decide, by with_unfolding_all decide,
   by with_unfolding_all decide⟩

/-- C4 witness: the amended monotonicity applied to the accepted first
iteration of the two-node unit-mass run. -/
theorem C4_witness :
    (∀ p ∈ twoConnAfter.current.nodes, p ∈ twoConnSt.current.nodes) ∧
    twoConnAfter.steps = twoConnSt.steps + 1 ∧
    ((∀ p ∈ twoConnSt.current.nodes, 0 ≤ p.2.mass) →
      twoConnAfter.current.totalMass ≤ twoConnSt.current.totalMass) :=
  C4_accepted_iteration_monotone twoConnParams twoConnSt twoConnAfter
    (by with_unfolding_all decide)

/-- C5 (confirmed): when the input's total mass is already at or below the
target, `optimize_until_target` returns the input structure itself (the very
value, so same nodes, springs and attributes), step count exactly 0 and the
already-below-target message; the return fires before the deep copy and
before any mutating operation. -/
theorem C5_already_below_target (oracle : Oracle)
    (rngF : ℕ → List ℕ → ℕ → List ℕ × ℕ) (struct : PStructure) (prot : List ℕ)
    (targetMass : ℚ) (maxSteps topN patience : ℕ)
    (h : struct.totalMass ≤ targetMass) :
    optimize oracle rngF struct prot targetMass maxSteps topN patience =
      (some struct, 0, OptStatus.alreadyBelow) ∧
    (optimizeFull oracle rngF struct prot targetMass maxSteps topN patience).2 = [] := by
  unfold optimize
  rw [optimizeFull_eq, if_pos h]
  exact ⟨rfl, rfl⟩

/-- C5 witness: a unit-mass structure with target 5 returns unchanged with 0
steps. -/
theorem C5_witness :
    optimize oracleErr rngNone structOneNode [1] 5 10 400 80 =
      (some structOneNode, 0, OptStatus.alreadyBelow) ∧
    (optimizeFull oracleErr rngNone structOneNode [1] 5 10 400 80).2 = [] :=
  C5_already_below_target oracleErr rngNone structOneNode [1] 5 10 400 80
    (by with_unfolding_all decide)

/-- C8 (confirmed): two invocations of `optimize_until_target` with equal
input structures, protected sets, target masses and step bounds, the same
deterministic sparse-solver oracle and the same fixed-seed tail chooser
(`np.random.default_rng(0)` is deterministic; it enters the embedding as an
explicit pure chooser threaded from seed state 0) return identical triples —
the embedding has no other source of variance. -/
theorem C8_two_run_determinism (oracle1 oracle2 : Oracle)
    (rng1 rng2 : ℕ → List ℕ → ℕ → List ℕ × ℕ) (s1 s2 : PStructure)
    (prot1 prot2 : List ℕ) (t1 t2 : ℚ) (m1 m2 n1 n2 p1 p2 : ℕ)
    (ho : oracle1 = oracle2) (hr : rng1 = rng2) (hs : s1 = s2) (hp : prot1 = prot2)
    (ht : t1 = t2) (hm : m1 = m2) (hn : n1 = n2) (hpa : p1 = p2) :
    optimize oracle1 rng1 s1 prot1 t1 m1 n1 p1 =
      optimize oracle2 rng2 s2 prot2 t2 m2 n2 p2 := by
  subst ho hr hs hp ht hm hn hpa
  rfl

/-- C8 witness: two identical runs on the two-node structure return the same
triple. -/
theorem C8_witness :
    optimize oracleErr rngNone structTwoConn [1] 0 3 400 80 =
      optimize oracleErr rngNone structTwoConn [1] 0 3 400 80 :=
  C8_two_run_determinism oracleErr oracleErr rngNone rngNone structTwoConn structTwoConn
    [1] [1] 0 0 3 3 400 400 80 80 rfl rfl rfl rfl rfl rfl rfl rfl

/-- C10 (confirmed): `optimize_until_target` never mutates its input: the
caller's store is returned exactly as it was, for every status, and the
result is a pure function of the value read at the caller's reference —
reflecting that the source deep-copies the structure at entry and applies
every removal, pruning and rollback to that copy. -/
theorem C10_input_not_mutated (oracle : Oracle)
    (rngF : ℕ → List ℕ → ℕ → List ℕ × ℕ) (store : ℕ → PStructure) (ref : ℕ)
    (prot : List ℕ) (targetMass : ℚ) (maxSteps topN patience : ℕ) :
    (optimizeOnStore oracle rngF store ref prot targetMass maxSteps topN patience).2 = store ∧
    (optimizeOnStore oracle rngF store ref prot targetMass maxSteps topN patience).2 ref
      = store ref ∧
    (optimizeOnStore oracle rngF store ref prot targetMass maxSteps topN patience).1 =
      optimize oracle rngF (store ref) prot targetMass maxSteps topN patience :=
  ⟨rfl, rfl, rfl⟩

/-- C6 (corrected): the optimizer's batch size equals the spec formula
whenever the start and current masses are at least the `1e-12` guard the
code puts in the denominators (`max(start_mass, 1e-12)`,
`max(cur_mass, 1e-12)`); below that guard the two formulas diverge, see the
counterexample. -/
theorem C6_batch_size_formula (startMass target curMass : ℚ) (nNodes : ℕ)
    (h1 : 1 / 10 ^ 12 ≤ startMass) (h2 : 1 / 10 ^ 12 ≤ curMass) :
    computeK startMass target curMass nNodes =
      computeKSpecFormula startMass target curMass nNodes := by
  unfold computeK computeKSpecFormula
  rw [max_eq_left h1, max_eq_left h2]

/-- C6 counterexample: at start mass = current mass = 1e-13 (below the
guard), target 0 and 20000 nodes, the code computes k = 1 while the spec
formula gives k = 120. -/
theorem C6_counterexample :
    computeK (1 / 10 ^ 13) 0 (1 / 10 ^ 13) 20000 = 1 ∧
    computeKSpecFormula (1 / 10 ^ 13) 0 (1 / 10 ^ 13) 20000 = 120 ∧
    computeK (1 / 10 ^ 13) 0 (1 / 10 ^ 13) 20000 ≠
      computeKSpecFormula (1 / 10 ^ 13) 0 (1 / 10 ^ 13) 20000 :=
  ⟨by with_unfolding_all decide, by with_unfolding_all decide,
   by with_unfolding_all decide⟩

/-- C6 witness: above the guard the two formulas agree, e.g. masses 10 and
target 5 with 100 nodes. -/
theorem C6_witness :
    computeK 10 5 10 100 = computeKSpecFormula 10 5 10 100 :=
  C6_batch_size_formula 10 5 10 100 (by with_unfolding_all decide)
    (by with_unfolding_all decide)

/-- C7 (confirmed): element-kernel duality.  First conjunct: for the element
matrix written in the direction cosines (solver.py lines 22–30), the
quadratic-form energy `½·ueᵀ·Ke·ue` equals the axial form
`½·k·(c·Δux + s·Δuz)²` exactly, for all `k`, `c`, `s` and element
displacements.  Second conjunct: the same for the memoized kernel's rational
entries (`cc = dx²/L²` etc.), with the axial form
`½·k·(dx·Δux + dz·Δuz)²/L²`, whenever `L² = dx²+dz² ≠ 0`. -/
theorem C7_element_kernel_duality :
    (∀ k c s uix uiz ujx ujz : ℚ,
      (1 / 2) * quadForm (keOfCS k c s) ![uix, uiz, ujx, ujz] =
        (1 / 2) * k * (c * (ujx - uix) + s * (ujz - uiz)) ^ 2) ∧
    (∀ dx dz k uix uiz ujx ujz : ℚ, dx ^ 2 + dz ^ 2 ≠ 0 →
      (1 / 2) * quadForm (keEntries dx dz k) ![uix, uiz, ujx, ujz] =
        (1 / 2) * k * (dx * (ujx - uix) + dz * (ujz - uiz)) ^ 2 /
          (dx ^ 2 + dz ^ 2)) := by
  constructor
  · intro k c s uix uiz ujx ujz
    simp only [quadForm, keOfCS, Fin.sum_univ_four]
    simp only [Matrix.cons_val_zero, Matrix.cons_val_one, Matrix.head_cons,
      Matrix.cons_val_two, Matrix.tail_cons, Matrix.cons_val_three]
    ring
  · intro dx dz k uix uiz ujx ujz hL
    simp only [quadForm, keEntries, Fin.sum_univ_four]
    simp only [Matrix.cons_val_zero, Matrix.cons_val_one, Matrix.head_cons,
      Matrix.cons_val_two, Matrix.tail_cons, Matrix.cons_val_three]
    field_simp
    ring

/-- C7 witness: a unit horizontal spring of stiffness 100 with a unit axial
displacement stores energy 50, through both forms. -/
theorem C7_witness :
    (1 / 2) * quadForm (keOfCS 100 1 0) ![0, 0, 1, 0] =
      (1 / 2) * 100 * ((1 : ℚ) * (1 - 0) + 0 * (0 - 0)) ^ 2 ∧
    (1 / 2) * quadForm (keEntries 1 0 100) ![0, 0, 1, 0] =
      (1 / 2) * 100 * ((1 : ℚ) * (1 - 0) + 0 * (0 - 0)) ^ 2 / (1 ^ 2 + 0 ^ 2) :=
  ⟨C7_element_kernel_duality.1 100 1 0 0 0 1 0,
   C7_element_kernel_duality.2 1 0 100 0 0 1 0 (by norm_num)⟩

/-! ### Zero-length springs -/

lemma elemMatrix_eq (xi zi xj zj k : ℚ) :
    elemMatrix xi zi xj zj k =
      if (xj - xi) ^ 2 + (zj - zi) ^ 2 ≤ 0 then Except.error SolveErr.zeroLength
      else Except.ok (keEntries (xj - xi) (zj - zi) k) := rfl

lemma elemMatrix_error_eq {xi zi xj zj k : ℚ} {e : SolveErr}
    (h : elemMatrix xi zi xj zj k = Except.error e) : e = SolveErr.zeroLength := by
  rw [elemMatrix_eq] at h
  split_ifs at h
  exact (Except.error.inj h).symm

lemma elemMatrix_coincident (x z k : ℚ) :
    elemMatrix x z x z k = Except.error SolveErr.zeroLength := by
  rw [elemMatrix_eq, if_pos (by simp)]

lemma assembleEntries_zeroLength {s : PStructure} :
    ∀ (springs : List PSpring),
      (∀ sp ∈ springs, (s.nodeLookup sp.i).isSome = true ∧
        (s.nodeLookup sp.j).isSome = true) →
      (∃ sp ∈ springs, coordsOf s sp.i = coordsOf s sp.j ∧
        (coordsOf s sp.i).isSome = true) →
      assembleEntries s springs = Except.error SolveErr.zeroLength := by
  intro springs
  induction springs with
  | nil => rintro _ ⟨sp, h, _⟩; exact absurd h (by simp)
  | cons sp rest ih =>
    rintro hall hex
    obtain ⟨hi, hj⟩ := hall sp (List.mem_cons_self sp rest)
    obtain ⟨ni, hni⟩ := Option.isSome_iff_exists.mp hi
    obtain ⟨nj, hnj⟩ := Option.isSome_iff_exists.mp hj
    cases hel : elemMatrix ni.x ni.z nj.x nj.z sp.k with
    | error e =>
      have he := elemMatrix_error_eq hel
      subst he
      simp only [assembleEntries, hni, hnj, hel]
    | ok ke =>
      obtain ⟨sp2, hsp2, hco, hsome⟩ := hex
      have hrest : ∃ sp3 ∈ rest, coordsOf s sp3.i = coordsOf s sp3.j ∧
          (coordsOf s sp3.i).isSome = true := by
        rcases List.mem_cons.mp hsp2 with rfl | hmem
        · exfalso
          have hxi : coordsOf s sp2.i = some (ni.x, ni.z) := by
            unfold coordsOf; rw [hni]; rfl
          have hxj : coordsOf s sp2.j = some (nj.x, nj.z) := by
            unfold coordsOf; rw [hnj]; rfl
          rw [hxi, hxj] at hco
          obtain ⟨h1, h2⟩ := Prod.mk.inj (Option.some.inj hco)
          rw [h1, h2, elemMatrix_coincident] at hel
          exact absurd hel (by simp)
        · exact ⟨sp2, hmem, hco, hsome⟩
      have hihr := ih (fun sp3 h3 => hall sp3 (List.mem_cons_of_mem sp h3)) hrest
      simp only [assembleEntries, hni, hnj, hel, hihr]
      rfl

/-- C3 (corrected): the solver-side element kernel signals ZeroLengthSpring
for coincident endpoints, and `solve_displacements` on a structure that
contains a zero-length spring (all spring endpoints present, the structure
invariant) fails with ZeroLengthSpring before any solver call; the
optimizer's memoized `get_ke`, however, returns a cached ZERO matrix for a
zero-length spring instead of signalling — the claim's "every code path"
fails on that path. -/
theorem C3_zero_length_spring :
    (∀ x z k : ℚ, elemMatrix x z x z k = Except.error SolveErr.zeroLength) ∧
    (∀ (oracle : Oracle) (s : PStructure),
      (∀ sp ∈ s.springs, (s.nodeLookup sp.i).isSome = true ∧
        (s.nodeLookup sp.j).isSome = true) →
      (∃ sp ∈ s.springs, coordsOf s sp.i = coordsOf s sp.j ∧
        (coordsOf s sp.i).isSome = true) →
      (solveDisp oracle s).1 = Except.error SolveErr.zeroLength ∧
      (solveDisp oracle s).2 = []) ∧
    (∀ (coords : ℕ → Option (ℚ × ℚ)) (sp : PSpring) (xy : ℚ × ℚ),
      coords sp.i = some xy → coords sp.j = some xy →
      getKe coords sp = some (fun _ _ => 0)) := by
  refine ⟨elemMatrix_coincident, ?_, ?_⟩
  · intro oracle s hall hex
    have h := assembleEntries_zeroLength s.springs hall hex
    unfold solveDisp
    rw [h]
    exact ⟨rfl, rfl⟩
  · intro coords sp xy hci hcj
    obtain ⟨x0, z0⟩ := xy
    have hg : getKe coords sp =
        if (x0 - x0) ^ 2 + (z0 - z0) ^ 2 ≤ 0 then some (fun _ _ => 0)
        else some (keEntries (x0 - x0) (z0 - z0) sp.k) := by
      unfold getKe
      rw [hci, hcj]
    rw [hg, if_pos (by simp)]

/-- C3 counterexample: for the spring between two nodes both at (0, 0), the
solver kernel raises ZeroLengthSpring, yet the optimizer's memoized kernel
returns the zero matrix — the memoized code path does not signal. -/
theorem C3_counterexample :
    elemMatrix 0 0 0 0 100 = Except.error SolveErr.zeroLength ∧
    getKe (coordsOf structZeroLen) ⟨1, 2, 100⟩ = some (fun _ _ => 0) ∧
    (solveDisp oracleErr structZeroLen).1 = Except.error SolveErr.zeroLength :=
  ⟨by with_unfolding_all decide, by with_unfolding_all decide,
   by with_unfolding_all decide⟩

/-- C3 witness: solving the concrete zero-length structure fails with
ZeroLengthSpring and no solver call is made. -/
theorem C3_witness :
    (solveDisp oracleErr structZeroLen).1 = Except.error SolveErr.zeroLength ∧
    (solveDisp oracleErr structZeroLen).2 = [] :=
  C3_zero_length_spring.2.1 oracleErr structZeroLen
    (by with_unfolding_all decide)
    ⟨⟨1, 2, 100⟩, by with_unfolding_all decide, by with_unfolding_all decide,
      by with_unfolding_all decide⟩

/-! ### The all-fixed fast path -/

lemma sInsert_perm (le : α → α → Bool) (x : α) (l : List α) :
    (sInsert le x l).Perm (x :: l) := by
  induction l with
  | nil => exact List.Perm.refl _
  | cons y ys ih =>
    show (if le x y then x :: y :: ys else y :: sInsert le x ys).Perm (x :: y :: ys)
    by_cases h : le x y
    · rw [if_pos h]
    · rw [if_neg h]
      exact List.Perm.trans (List.Perm.cons y ih) (List.Perm.swap x y ys)

lemma sSort_perm (le : α → α → Bool) (l : List α) : (sSort le l).Perm l := by
  induction l with
  | nil => exact List.Perm.refl _
  | cons x xs ih =>
    exact List.Perm.trans (sInsert_perm le x (sSort le xs)) (List.Perm.cons x ih)

lemma nodeIdsSorted_perm (s : PStructure) : s.nodeIdsSorted.Perm s.idList :=
  sSort_perm _ _

lemma findIdx_getElem_of_nodup :
    ∀ {l : List ℕ}, l.Nodup → ∀ {q : ℕ} (hq : q < l.length),
      l.findIdx (fun m => m = l[q]) = q := by
  intro l
  induction l with
  | nil => intro _ q hq; exact absurd hq (by simp)
  | cons a t ih =>
    intro hnd q hq
    match q, hq with
    | 0, _ => simp [List.findIdx_cons]
    | Nat.succ m, hq =>
      have hm : m < t.length := by simpa using hq
      have hmem : t[m] ∈ t := List.getElem_mem hm
      have hne : ¬ a = t[m] := fun he => (List.nodup_cons.mp hnd).1 (he ▸ hmem)
      have hget : (a :: t)[m + 1] = t[m] := by simp
      rw [hget, List.findIdx_cons]
      have hrec := ih (List.nodup_cons.mp hnd).2 hm
      simp [hne, hrec]

lemma mem_fixedDofs_all_fixed {s : PStructure}
    (hfix : ∀ p ∈ s.nodes, p.2.fixed_x = true ∧ p.2.fixed_z = true)
    (hnd : s.idList.Nodup) :
    ∀ i < s.ndofs, i ∈ fixedDofs s := by
  intro i hi
  have hlen0 : s.idList.length = s.nodes.length := List.length_map _ _
  have hlen : s.nodeIdsSorted.length = s.nodes.length := by
    rw [(nodeIdsSorted_perm s).length_eq, hlen0]
  have hnds : s.nodeIdsSorted.Nodup := ((nodeIdsSorted_perm s).nodup_iff).mpr hnd
  rw [PStructure.ndofs] at hi
  have hq : i / 2 < s.nodes.length := by omega
  have hql : i / 2 < s.nodeIdsSorted.length := by rw [hlen]; exact hq
  have hpos : s.idToPos s.nodeIdsSorted[i / 2] = i / 2 :=
    findIdx_getElem_of_nodup hnds hql
  have hmemid : s.nodeIdsSorted[i / 2] ∈ s.idList :=
    (nodeIdsSorted_perm s).mem_iff.mp (List.getElem_mem hql)
  obtain ⟨p, hp, hpeq⟩ := List.mem_map.mp hmemid
  obtain ⟨hfx, hfz⟩ := hfix p hp
  unfold fixedDofs
  rw [List.mem_flatten]
  refine ⟨(if p.2.fixed_x then [2 * s.idToPos p.1] else []) ++
    (if p.2.fixed_z then [2 * s.idToPos p.1 + 1] else []), List.mem_map.mpr ⟨p, hp, rfl⟩, ?_⟩
  rw [hfx, hfz]
  simp only [if_pos, List.mem_append, List.mem_singleton]
  rw [hpeq, hpos]
  omega

lemma freeDofs_nil_of_all_fixed {s : PStructure}
    (hfix : ∀ p ∈ s.nodes, p.2.fixed_x = true ∧ p.2.fixed_z = true)
    (hnd : s.idList.Nodup) : freeDofs s = [] := by
  unfold freeDofs
  rw [List.filter_eq_nil_iff]
  intro a ha
  rw [List.mem_range] at ha
  simp [mem_fixedDofs_all_fixed hfix hnd a ha]

/-- C9 (corrected): for a structure in which every DOF is fixed, provided
the assembly succeeds (it runs first and can still raise ZeroLengthSpring,
see the counterexample) and node ids are unique (a dict invariant),
`solve_displacements` returns the all-zero vector of length `2N` and a
per-node map assigning `(0.0, 0.0)` to every node id, with an empty solver
call trace and a result independent of the oracle — no factorization is
invoked. -/
theorem C9_all_fixed_zero_solution (oracle1 oracle2 : Oracle) (s : PStructure)
    (hfix : ∀ p ∈ s.nodes, p.2.fixed_x = true ∧ p.2.fixed_z = true)
    (hnd : s.idList.Nodup) (entries : List AsmEntry)
    (hasm : assembleEntries s s.springs = Except.ok entries) :
    solveDisp oracle1 s =
      (Except.ok (List.replicate s.ndofs 0,
        s.nodeIdsSorted.map (fun nid => (nid, ((0 : ℚ), (0 : ℚ))))), []) ∧
    solveDisp oracle1 s = solveDisp oracle2 s := by
  have hfree := freeDofs_nil_of_all_fixed hfix hnd
  have hsd : ∀ oracle : Oracle, solveDisp oracle s =
      (Except.ok (List.replicate s.ndofs 0,
        s.nodeIdsSorted.map (fun nid => (nid, ((0 : ℚ), (0 : ℚ))))), []) := by
    intro oracle
    unfold solveDisp
    rw [hasm, hfree]
    rfl
  exact ⟨hsd oracle1, (hsd oracle1).trans (hsd oracle2).symm⟩

/-- C9 counterexample: the all-fixed structure with a zero-length spring:
assembly runs before the free-DOF check, so the solve raises
ZeroLengthSpring instead of returning the zero solution. -/
theorem C9_counterexample :
    (∀ p ∈ structZeroLen.nodes, p.2.fixed_x = true ∧ p.2.fixed_z = true) ∧
    (solveDisp oracleErr structZeroLen).1 = Except.error SolveErr.zeroLength ∧
    (solveDisp oracleErr structZeroLen).1 ≠
      Except.ok (List.replicate structZeroLen.ndofs 0,
        structZeroLen.nodeIdsSorted.map (fun nid => (nid, ((0 : ℚ), (0 : ℚ))))) :=
  ⟨by with_unfolding_all decide, by with_unfolding_all decide,
   by with_unfolding_all decide⟩

/-- C9 witness: the all-fixed two-node structure with a proper spring
solves to zeros with no solver call, for two different oracles. -/
theorem C9_witness :
    solveDisp oracleErr structTwoConn =
      (Except.ok (List.replicate structTwoConn.ndofs 0,
        structTwoConn.nodeIdsSorted.map (fun nid => (nid, ((0 : ℚ), (0 : ℚ))))), []) ∧
    solveDisp oracleErr structTwoConn = solveDisp oracleRankWarn structTwoConn :=
  C9_all_fixed_zero_solution oracleErr oracleRankWarn structTwoConn
    (by with_unfolding_all decide) (by with_unfolding_all decide)
    ((assembleEntries structTwoConn structTwoConn.springs).toOption.getD [])
    (by with_unfolding_all decide)

/-! ### Singularity policy of the linear solve -/

lemma matDiag_kffOf (s : PStructure) (entries : List AsmEntry) :
    matDiag (kffOf s entries) = (freeDofs s).map (fun r => kGlobal entries r r) := by
  unfold matDiag kffOf
  apply List.ext_getElem
  · simp
  · intro i h1 h2
    simp only [List.getElem_map, List.getElem_enum]
    rw [List.getD_eq_getElem _ _ (by simpa using h2)]
    simp

lemma epsOf_eq_chooseEps_matDiag (s : PStructure) (entries : List AsmEntry) :
    epsOf s entries = chooseEps (matDiag (kffOf s entries)) := by
  rw [matDiag_kffOf]
  rfl

lemma regularizeMat_entry (M : List (List ℚ)) (eps : ℚ) (i j : ℕ)
    (hi : i < M.length) (hj : j < ((M.getD i []).length)) :
    ((regularizeMat M eps).getD i []).getD j 0 =
      (M.getD i []).getD j 0 + (if i = j then eps else 0) := by
  unfold regularizeMat
  rw [List.getD_eq_getElem M [] hi] at hj
  have hlen1 : i < (M.enum.map (fun ir =>
      ir.2.enum.map (fun jv => if ir.1 = jv.1 then jv.2 + eps else jv.2))).length := by
    simpa using hi
  rw [List.getD_eq_getElem _ _ hlen1]
  simp only [List.getElem_map, List.getElem_enum]
  have hlen2 : j < ((M[i]).enum.map
      (fun jv => if i = jv.1 then jv.2 + eps else jv.2)).length := by
    simpa using hj
  rw [List.getD_eq_getElem _ _ hlen2, List.getD_eq_getElem M [] hi,
    List.getD_eq_getElem _ _ hj]
  simp only [List.getElem_map, List.getElem_enum]
  by_cases hij : i = j
  · rw [if_pos hij, if_pos hij]
  · rw [if_neg hij, if_neg hij, add_zero]

lemma solveFinish_trace (s : PStructure) (uf : List ℚ) (fin : Bool)
    (t : List (List (List ℚ) × List ℚ)) : (solveFinish s uf fin t).2 = t := by
  unfold solveFinish
  split_ifs <;> rfl

lemma solveFinish_false (s : PStructure) (uf : List ℚ)
    (t : List (List (List ℚ) × List ℚ)) :
    (solveFinish s uf false t).1 = Except.error SolveErr.nonFinite := rfl

lemma solveDisp_asmError {oracle : Oracle} {s : PStructure} {e : SolveErr}
    (h : assembleEntries s s.springs = Except.error e) :
    solveDisp oracle s = (Except.error e, []) := by
  unfold solveDisp
  rw [h]

lemma solveDisp_freeEmpty {oracle : Oracle} {s : PStructure} {entries : List AsmEntry}
    (h : assembleEntries s s.springs = Except.ok entries)
    (hf : (freeDofs s).isEmpty = true) :
    solveDisp oracle s =
      (Except.ok (List.replicate s.ndofs 0,
        s.nodeIdsSorted.map (fun nid => (nid, ((0 : ℚ), (0 : ℚ))))), []) := by
  unfold solveDisp
  rw [h]
  show (if (freeDofs s).isEmpty = true then _ else _) = _
  rw [if_pos hf]

lemma solveDisp_twoCall {oracle : Oracle} {s : PStructure} {entries : List AsmEntry}
    (h : assembleEntries s s.springs = Except.ok entries)
    (hf : (freeDofs s).isEmpty = false) :
    solveDisp oracle s =
      match oracle (kffOf s entries) (ffOf s) with
      | SpsolveRes.ok uf fin => solveFinish s uf fin [(kffOf s entries, ffOf s)]
      | SpsolveRes.rankWarn =>
        match oracle (regularizeMat (kffOf s entries) (epsOf s entries)) (ffOf s) with
        | SpsolveRes.ok uf fin =>
          solveFinish s uf fin
            [(kffOf s entries, ffOf s),
             (regularizeMat (kffOf s entries) (epsOf s entries), ffOf s)]
        | SpsolveRes.rankWarn =>
          (Except.error SolveErr.rankWarnPropagated,
           [(kffOf s entries, ffOf s),
            (regularizeMat (kffOf s entries) (epsOf s entries), ffOf s)])
        | SpsolveRes.err =>
          (Except.error SolveErr.otherPropagated,
           [(kffOf s entries, ffOf s),
            (regularizeMat (kffOf s entries) (epsOf s entries), ffOf s)])
      | SpsolveRes.err =>
        match oracle (regularizeMat (kffOf s entries) (epsOf s entries)) (ffOf s) with
        | SpsolveRes.ok uf fin =>
          solveFinish s uf fin
            [(kffOf s entries, ffOf s),
             (regularizeMat (kffOf s entries) (epsOf s entries), ffOf s)]
        | _ =>
          (Except.error SolveErr.singularRetryFailed,
           [(kffOf s entries, ffOf s),
            (regularizeMat (kffOf s entries) (epsOf s entries), ffOf s)]) := by
  unfold solveDisp
  rw [h]
  show (if (freeDofs s).isEmpty = true then _ else _) = _
  rw [hf]
  rw [if_neg (by simp)]

lemma chooseEps_pos {d : List ℚ} (hpos : 0 < (d.map (fun q => |q|)).sum / d.length) :
    chooseEps d = (1 / 10 ^ 9) * ((d.map (fun q => |q|)).sum / d.length) := by
  have hd : d.length ≠ 0 := by
    intro h0
    rw [h0] at hpos
    norm_num at hpos
  unfold chooseEps
  show (if (if d.length = 0 then (0 : ℚ)
      else (d.map (fun q => |q|)).sum / d.length) ≤ 0 then _ else _) = _
  rw [if_neg hd, if_neg (not_le.mpr hpos)]

lemma chooseEps_nonpos {d : List ℚ} (hnp : (d.map (fun q => |q|)).sum / d.length ≤ 0)
    (hne : d ≠ []) : chooseEps d = 1 / 10 ^ 9 := by
  have hd : d.length ≠ 0 := fun h0 => hne (List.length_eq_zero.mp h0)
  unfold chooseEps
  show (if (if d.length = 0 then (0 : ℚ)
      else (d.map (fun q => |q|)).sum / d.length) ≤ 0 then _ else _) = _
  rw [if_neg hd, if_pos hnp]

lemma list_pair2_inj {α β : Type} {a1 a2 c1 c2 : α} {b1 b2 d1 d2 : β}
    (h : [(a1, b1), (c1, d1)] = [(a2, b2), (c2, d2)]) :
    a1 = a2 ∧ b1 = b2 ∧ c1 = c2 ∧ d1 = d2 := by
  obtain ⟨h1, h2⟩ := List.cons.inj h
  obtain ⟨h3, _⟩ := List.cons.inj h2
  obtain ⟨ha, hb⟩ := Prod.mk.inj h1
  obtain ⟨hc, hd⟩ := Prod.mk.inj h3
  exact ⟨ha, hb, hc, hd⟩

lemma list_pair1_inj {α β : Type} {a1 a2 : α} {b1 b2 : β}
    (h : [(a1, b1)] = [(a2, b2)]) : a1 = a2 ∧ b1 = b2 := by
  obtain ⟨h1, _⟩ := List.cons.inj h
  exact Prod.mk.inj h1

/-- C2 (confirmed): the singularity policy of `solve_displacements`.  At most
two solver calls are made.  When two calls occur, the second call's matrix is
exactly the first call's matrix plus `ε·I` with
`ε = _choose_eps_from_diag(K_ff.diagonal())`, its right-hand side is
unchanged, and the first call did not return a vector; if the retry also
fails, or the returned vector fails the finiteness test, the solve ends in an
error rather than returning a displacement.  When one call occurs and its
vector fails the finiteness test, the solve fails with the NonFinite error.
Conversely, whenever the solver body is reached (assembly succeeded and free
DOFs exist), a first call that returns a vector makes exactly one call and a
first call that does not return a vector (rank warning flagged as an error,
or any other solver failure) triggers exactly one retry: the trace is exactly
the first system followed by `(K_ff + ε·I, F_f)`.
`chooseEps` is `1e-9 · mean(|diag|)` with fallback `1e-9` when that mean is
not positive, and `regularizeMat` adds `ε` exactly on the diagonal. -/
theorem C2_singular_retry_policy (oracle : Oracle) (s : PStructure) :
    (solveDisp oracle s).2.length ≤ 2 ∧
    (∀ M1 b1 M2 b2, (solveDisp oracle s).2 = [(M1, b1), (M2, b2)] →
      b2 = b1 ∧ M2 = regularizeMat M1 (chooseEps (matDiag M1)) ∧
      (∀ u fin, oracle M1 b1 ≠ SpsolveRes.ok u fin) ∧
      ((∀ u fin, oracle M2 b2 ≠ SpsolveRes.ok u fin) →
        ∃ e, (solveDisp oracle s).1 = Except.error e) ∧
      (∀ u, oracle M2 b2 = SpsolveRes.ok u false →
        (solveDisp oracle s).1 = Except.error SolveErr.nonFinite)) ∧
    (∀ M1 b1, (solveDisp oracle s).2 = [(M1, b1)] →
      ∀ u, oracle M1 b1 = SpsolveRes.ok u false →
        (solveDisp oracle s).1 = Except.error SolveErr.nonFinite) ∧
    (∀ entries, assembleEntries s s.springs = Except.ok entries →
      (freeDofs s).isEmpty = false →
      (∀ u fin, oracle (kffOf s entries) (ffOf s) = SpsolveRes.ok u fin →
        (solveDisp oracle s).2 = [(kffOf s entries, ffOf s)]) ∧
      ((∀ u fin, oracle (kffOf s entries) (ffOf s) ≠ SpsolveRes.ok u fin) →
        (solveDisp oracle s).2 =
          [(kffOf s entries, ffOf s),
           (regularizeMat (kffOf s entries)
             (chooseEps (matDiag (kffOf s entries))), ffOf s)])) ∧
    (∀ d : List ℚ, 0 < (d.map (fun q => |q|)).sum / d.length →
      chooseEps d = (1 / 10 ^ 9) * ((d.map (fun q => |q|)).sum / d.length)) ∧
    (∀ d : List ℚ, d ≠ [] → (d.map (fun q => |q|)).sum / d.length ≤ 0 →
      chooseEps d = 1 / 10 ^ 9) ∧
    (∀ (M : List (List ℚ)) (eps : ℚ) (i j : ℕ), i < M.length →
      j < ((M.getD i []).length) →
      ((regularizeMat M eps).getD i []).getD j 0 =
        (M.getD i []).getD j 0 + (if i = j then eps else 0)) := by
  have HT : (solveDisp oracle s).2.length ≤ 2 ∧
      (∀ M1 b1 M2 b2, (solveDisp oracle s).2 = [(M1, b1), (M2, b2)] →
        b2 = b1 ∧ M2 = regularizeMat M1 (chooseEps (matDiag M1)) ∧
        (∀ u fin, oracle M1 b1 ≠ SpsolveRes.ok u fin) ∧
        ((∀ u fin, oracle M2 b2 ≠ SpsolveRes.ok u fin) →
          ∃ e, (solveDisp oracle s).1 = Except.error e) ∧
        (∀ u, oracle M2 b2 = SpsolveRes.ok u false →
          (solveDisp oracle s).1 = Except.error SolveErr.nonFinite)) ∧
      (∀ M1 b1, (solveDisp oracle s).2 = [(M1, b1)] →
        ∀ u, oracle M1 b1 = SpsolveRes.ok u false →
          (solveDisp oracle s).1 = Except.error SolveErr.nonFinite) := by
    cases hasm : assembleEntries s s.springs with
    | error e =>
      rw [@solveDisp_asmError oracle s e hasm]
      refine ⟨by simp, ?_, ?_⟩
      · intro M1 b1 M2 b2 htr; exact absurd htr (by simp)
      · intro M1 b1 htr; exact absurd htr (by simp)
    | ok entries =>
      by_cases hf : (freeDofs s).isEmpty
      · rw [solveDisp_freeEmpty hasm hf]
        refine ⟨by simp, ?_, ?_⟩
        · intro M1 b1 M2 b2 htr; exact absurd htr (by simp)
        · intro M1 b1 htr; exact absurd htr (by simp)
      · have hf2 : (freeDofs s).isEmpty = false := by simpa using hf
        have hsd := @solveDisp_twoCall oracle s entries hasm hf2
        have hreg : regularizeMat (kffOf s entries) (epsOf s entries) =
            regularizeMat (kffOf s entries) (chooseEps (matDiag (kffOf s entries))) := by
          rw [epsOf_eq_chooseEps_matDiag]
        cases ho1 : oracle (kffOf s entries) (ffOf s) with
        | ok uf fin =>
          have hsd2 : solveDisp oracle s =
              solveFinish s uf fin [(kffOf s entries, ffOf s)] := by
            rw [hsd, ho1]
          rw [hsd2, solveFinish_trace]
          refine ⟨by simp, ?_, ?_⟩
          · intro M1 b1 M2 b2 htr; exact absurd htr (by simp)
          · intro M1 b1 htr u hu
            obtain ⟨hM, hb⟩ := list_pair1_inj htr
            rw [← hM, ← hb, ho1] at hu
            obtain ⟨_, hfin⟩ := SpsolveRes.ok.inj hu
            rw [hfin]
            exact solveFinish_false s uf _
        | rankWarn =>
          cases ho2 : oracle (regularizeMat (kffOf s entries) (epsOf s entries))
              (ffOf s) with
          | ok uf fin =>
            have hsd2 : solveDisp oracle s = solveFinish s uf fin
                [(kffOf s entries, ffOf s),
                 (regularizeMat (kffOf s entries) (epsOf s entries), ffOf s)] := by
              rw [hsd, ho1, ho2]
            rw [hsd2, solveFinish_trace]
            refine ⟨by simp, ?_, ?_⟩
            · intro M1 b1 M2 b2 htr
              obtain ⟨hM1, hb1, hM2, hb2⟩ := list_pair2_inj htr
              refine ⟨by rw [← hb1, ← hb2], by rw [← hM1, ← hM2, hreg], ?_, ?_, ?_⟩
              · intro u fin0 hcon
                rw [← hM1, ← hb1, ho1] at hcon
                exact SpsolveRes.noConfusion hcon
              · intro hno
                exact absurd (by rw [← hM2, ← hb2]; exact ho2) (hno uf fin)
              · intro u hu
                rw [← hM2, ← hb2, ho2] at hu
                obtain ⟨_, hfin⟩ := SpsolveRes.ok.inj hu
                rw [hfin]
                exact solveFinish_false s uf _
            · intro M1 b1 htr; exact absurd htr (by simp)
          | rankWarn =>
            have hsd2 : solveDisp oracle s = (Except.error SolveErr.rankWarnPropagated,
                [(kffOf s entries, ffOf s),
                 (regularizeMat (kffOf s entries) (epsOf s entries), ffOf s)]) := by
              rw [hsd, ho1, ho2]
            rw [hsd2]
            refine ⟨by simp, ?_, ?_⟩
            · intro M1 b1 M2 b2 htr
              obtain ⟨hM1, hb1, hM2, hb2⟩ := list_pair2_inj htr
              refine ⟨by rw [← hb1, ← hb2], by rw [← hM1, ← hM2, hreg], ?_, ?_, ?_⟩
              · intro u fin0 hcon
                rw [← hM1, ← hb1, ho1] at hcon
                exact SpsolveRes.noConfusion hcon
              · intro _
                exact ⟨SolveErr.rankWarnPropagated, rfl⟩
              · intro u hu
                rw [← hM2, ← hb2, ho2] at hu
                exact SpsolveRes.noConfusion hu
            · intro M1 b1 htr; exact absurd htr (by simp)
          | err =>
            have hsd2 : solveDisp oracle s = (Except.error SolveErr.otherPropagated,
                [(kffOf s entries, ffOf s),
                 (regularizeMat (kffOf s entries) (epsOf s entries), ffOf s)]) := by
              rw [hsd, ho1, ho2]
            rw [hsd2]
            refine ⟨by simp, ?_, ?_⟩
            · intro M1 b1 M2 b2 htr
              obtain ⟨hM1, hb1, hM2, hb2⟩ := list_pair2_inj htr
              refine ⟨by rw [← hb1, ← hb2], by rw [← hM1, ← hM2, hreg], ?_, ?_, ?_⟩
              · intro u fin0 hcon
                rw [← hM1, ← hb1, ho1] at hcon
                exact SpsolveRes.noConfusion hcon
              · intro _
                exact ⟨SolveErr.otherPropagated, rfl⟩
              · intro u hu
                rw [← hM2, ← hb2, ho2] at hu
                exact SpsolveRes.noConfusion hu
            · intro M1 b1 htr; exact absurd htr (by simp)
        | err =>
          cases ho2 : oracle (regularizeMat (kffOf s entries) (epsOf s entries))
              (ffOf s) with
          | ok uf fin =>
            have hsd2 : solveDisp oracle s = solveFinish s uf fin
                [(kffOf s entries, ffOf s),
                 (regularizeMat (kffOf s entries) (epsOf s entries), ffOf s)] := by
              rw [hsd, ho1, ho2]
            rw [hsd2, solveFinish_trace]
            refine ⟨by simp, ?_, ?_⟩
            · intro M1 b1 M2 b2 htr
              obtain ⟨hM1, hb1, hM2, hb2⟩ := list_pair2_inj htr
              refine ⟨by rw [← hb1, ← hb2], by rw [← hM1, ← hM2, hreg], ?_, ?_, ?_⟩
              · intro u fin0 hcon
                rw [← hM1, ← hb1, ho1] at hcon
                exact SpsolveRes.noConfusion hcon
              · intro hno
                exact absurd (by rw [← hM2, ← hb2]; exact ho2) (hno uf fin)
              · intro u hu
                rw [← hM2, ← hb2, ho2] at hu
                obtain ⟨_, hfin⟩ := SpsolveRes.ok.inj hu
                rw [hfin]
                exact solveFinish_false s uf _
            · intro M1 b1 htr; exact absurd htr (by simp)
          | rankWarn =>
            have hsd2 : solveDisp oracle s = (Except.error SolveErr.singularRetryFailed,
                [(kffOf s entries, ffOf s),
                 (regularizeMat (kffOf s entries) (epsOf s entries), ffOf s)]) := by
              rw [hsd, ho1, ho2]
            rw [hsd2]
            refine ⟨by simp, ?_, ?_⟩
            · intro M1 b1 M2 b2 htr
              obtain ⟨hM1, hb1, hM2, hb2⟩ := list_pair2_inj htr
              refine ⟨by rw [← hb1, ← hb2], by rw [← hM1, ← hM2, hreg], ?_, ?_, ?_⟩
              · intro u fin0 hcon
                rw [← hM1, ← hb1, ho1] at hcon
                exact SpsolveRes.noConfusion hcon
              · intro _
                exact ⟨SolveErr.singularRetryFailed, rfl⟩
              · intro u hu
                rw [← hM2, ← hb2, ho2] at hu
                exact SpsolveRes.noConfusion hu
            · intro M1 b1 htr; exact absurd htr (by simp)
          | err =>
            have hsd2 : solveDisp oracle s = (Except.error SolveErr.singularRetryFailed,
                [(kffOf s entries, ffOf s),
                 (regularizeMat (kffOf s entries) (epsOf s entries), ffOf s)]) := by
              rw [hsd, ho1, ho2]
            rw [hsd2]
            refine ⟨by simp, ?_, ?_⟩
            · intro M1 b1 M2 b2 htr
              obtain ⟨hM1, hb1, hM2, hb2⟩ := list_pair2_inj htr
              refine ⟨by rw [← hb1, ← hb2], by rw [← hM1, ← hM2, hreg], ?_, ?_, ?_⟩
              · intro u fin0 hcon
                rw [← hM1, ← hb1, ho1] at hcon
                exact SpsolveRes.noConfusion hcon
              · intro _
                exact ⟨SolveErr.singularRetryFailed, rfl⟩
              · intro u hu
                rw [← hM2, ← hb2, ho2] at hu
                exact SpsolveRes.noConfusion hu
            · intro M1 b1 htr; exact absurd htr (by simp)
  have HR : ∀ entries, assembleEntries s s.springs = Except.ok entries →
      (freeDofs s).isEmpty = false →
      (∀ u fin, oracle (kffOf s entries) (ffOf s) = SpsolveRes.ok u fin →
        (solveDisp oracle s).2 = [(kffOf s entries, ffOf s)]) ∧
      ((∀ u fin, oracle (kffOf s entries) (ffOf s) ≠ SpsolveRes.ok u fin) →
        (solveDisp oracle s).2 =
          [(kffOf s entries, ffOf s),
           (regularizeMat (kffOf s entries)
             (chooseEps (matDiag (kffOf s entries))), ffOf s)]) := by
    intro entries hasm hf
    have hsd := @solveDisp_twoCall oracle s entries hasm hf
    have hreg : regularizeMat (kffOf s entries) (epsOf s entries) =
        regularizeMat (kffOf s entries) (chooseEps (matDiag (kffOf s entries))) := by
      rw [epsOf_eq_chooseEps_matDiag]
    constructor
    · intro u fin hu
      have hsd2 : solveDisp oracle s =
          solveFinish s u fin [(kffOf s entries, ffOf s)] := by
        rw [hsd, hu]
      rw [hsd2, solveFinish_trace]
    · intro hno
      cases ho1 : oracle (kffOf s entries) (ffOf s) with
      | ok uf fin => exact absurd ho1 (hno uf fin)
      | rankWarn =>
        cases ho2 : oracle (regularizeMat (kffOf s entries) (epsOf s entries))
            (ffOf s) with
        | ok uf fin =>
          have hsd2 : solveDisp oracle s = solveFinish s uf fin
              [(kffOf s entries, ffOf s),
               (regularizeMat (kffOf s entries) (epsOf s entries), ffOf s)] := by
            rw [hsd, ho1, ho2]
          rw [hsd2, solveFinish_trace, hreg]
        | rankWarn =>
          have hsd2 : solveDisp oracle s = (Except.error SolveErr.rankWarnPropagated,
              [(kffOf s entries, ffOf s),
               (regularizeMat (kffOf s entries) (epsOf s entries), ffOf s)]) := by
            rw [hsd, ho1, ho2]
          rw [hsd2, hreg]
        | err =>
          have hsd2 : solveDisp oracle s = (Except.error SolveErr.otherPropagated,
              [(kffOf s entries, ffOf s),
               (regularizeMat (kffOf s entries) (epsOf s entries), ffOf s)]) := by
            rw [hsd, ho1, ho2]
          rw [hsd2, hreg]
      | err =>
        cases ho2 : oracle (regularizeMat (kffOf s entries) (epsOf s entries))
            (ffOf s) with
        | ok uf fin =>
          have hsd2 : solveDisp oracle s = solveFinish s uf fin
              [(kffOf s entries, ffOf s),
               (regularizeMat (kffOf s entries) (epsOf s entries), ffOf s)] := by
            rw [hsd, ho1, ho2]
          rw [hsd2, solveFinish_trace, hreg]
        | rankWarn =>
          have hsd2 : solveDisp oracle s = (Except.error SolveErr.singularRetryFailed,
              [(kffOf s entries, ffOf s),
               (regularizeMat (kffOf s entries) (epsOf s entries), ffOf s)]) := by
            rw [hsd, ho1, ho2]
          rw [hsd2, hreg]
        | err =>
          have hsd2 : solveDisp oracle s = (Except.error SolveErr.singularRetryFailed,
              [(kffOf s entries, ffOf s),
               (regularizeMat (kffOf s entries) (epsOf s entries), ffOf s)]) := by
            rw [hsd, ho1, ho2]
          rw [hsd2, hreg]
  exact ⟨HT.1, HT.2.1, HT.2.2, HR, fun d => chooseEps_pos,
    fun d hne hnp => chooseEps_nonpos hnp hne, regularizeMat_entry⟩

/-- C2 witness: the retry policy instantiated on the free two-node structure
with the always-singular oracle: exactly two calls, the second on the
regularized matrix, ending in an error. -/
theorem C2_witness :
    (solveDisp oracleRankWarn structFree).2.length ≤ 2 ∧
    (∀ M1 b1 M2 b2, (solveDisp oracleRankWarn structFree).2 = [(M1, b1), (M2, b2)] →
      b2 = b1 ∧ M2 = regularizeMat M1 (chooseEps (matDiag M1)) ∧
      (∀ u fin, oracleRankWarn M1 b1 ≠ SpsolveRes.ok u fin) ∧
      ((∀ u fin, oracleRankWarn M2 b2 ≠ SpsolveRes.ok u fin) →
        ∃ e, (solveDisp oracleRankWarn structFree).1 = Except.error e) ∧
      (∀ u, oracleRankWarn M2 b2 = SpsolveRes.ok u false →
        (solveDisp oracleRankWarn structFree).1 = Except.error SolveErr.nonFinite)) ∧
    (∀ M1 b1, (solveDisp oracleRankWarn structFree).2 = [(M1, b1)] →
      ∀ u, oracleRankWarn M1 b1 = SpsolveRes.ok u false →
        (solveDisp oracleRankWarn structFree).1 = Except.error SolveErr.nonFinite) ∧
    (∀ entries, assembleEntries structFree structFree.springs = Except.ok entries →
      (freeDofs structFree).isEmpty = false →
      (∀ u fin, oracleRankWarn (kffOf structFree entries) (ffOf structFree) =
          SpsolveRes.ok u fin →
        (solveDisp oracleRankWarn structFree).2 =
          [(kffOf structFree entries, ffOf structFree)]) ∧
      ((∀ u fin, oracleRankWarn (kffOf structFree entries) (ffOf structFree) ≠
          SpsolveRes.ok u fin) →
        (solveDisp oracleRankWarn structFree).2 =
          [(kffOf structFree entries, ffOf structFree),
           (regularizeMat (kffOf structFree entries)
             (chooseEps (matDiag (kffOf structFree entries))), ffOf structFree)])) ∧
    (∀ d : List ℚ, 0 < (d.map (fun q => |q|)).sum / d.length →
      chooseEps d = (1 / 10 ^ 9) * ((d.map (fun q => |q|)).sum / d.length)) ∧
    (∀ d : List ℚ, d ≠ [] → (d.map (fun q => |q|)).sum / d.length ≤ 0 →
      chooseEps d = 1 / 10 ^ 9) ∧
    (∀ (M : List (List ℚ)) (eps : ℚ) (i j : ℕ), i < M.length →
      j < ((M.getD i []).length) →
      ((regularizeMat M eps).getD i []).getD j 0 =
        (M.getD i []).getD j 0 + (if i = j then eps else 0)) :=
  C2_singular_retry_policy oracleRankWarn structFree

/-- C10 witness: the frame property at a concrete store holding the one-node
structure. -/
theorem C10_witness :
    (optimizeOnStore oracleErr rngNone (fun _ => structOneNode) 0 [1] 0 1 400 80).2 =
      (fun _ => structOneNode) ∧
    (optimizeOnStore oracleErr rngNone (fun _ => structOneNode) 0 [1] 0 1 400 80).2 0 =
      (fun _ : ℕ => structOneNode) 0 ∧
    (optimizeOnStore oracleErr rngNone (fun _ => structOneNode) 0 [1] 0 1 400 80).1 =
      optimize oracleErr rngNone ((fun _ : ℕ => structOneNode) 0) [1] 0 1 400 80 :=
  C10_input_not_mutated oracleErr rngNone (fun _ => structOneNode) 0 [1] 0 1 400 80
